import Mathlib

/-!
# safestore: per-account key-value storage over one ordered store

A shallow embedding of `operations.go` (and of the one configuration type of
`config.go` it reads), with the properties of its four operations.

* Go `string` / `[]byte` values are byte sequences, `List (Fin 256)`.
* `state.EncodeIdentifier` lives in another module
  (`github.com/mguentner/passwordless/state`); it is a parameter `enc` of every
  definition that calls it.
* `encoding/base64`'s `StdEncoding` is embedded concretely (`EncodeToString`,
  `DecodeString`).
* The badger engine is an ordered finite map: a list of entries kept in
  ascending byte order of the keys.  Of the engine's own failures only the
  closed engine is embedded (`dbViewOn`, `KeysForIdentifierOn`); I/O errors,
  conflicts and the engine's size limits are outside this model.
* A Go runtime panic is the outcome `Ret.panic`.
-/

namespace Safestore

/-! ## Bytes -/

abbrev Byte := Fin 256

abbrev Bytes := List Byte

/-- Go's `byte(x)` conversion of an unsigned integer: the low eight bits. -/
def toByte (n : Nat) : Byte := ⟨n % 256, Nat.mod_lt n (by decide)⟩

/-- The byte `'-'`. -/
def dash : Byte := 45

/-- The bytes of `"-store"`. -/
def storeTag : Bytes := [45, 115, 116, 111, 114, 101]

/-! ## encoding/base64, StdEncoding -/

/-- The alphabet `encodeStd`:
`ABCDEFGHIJKLMNOPQRSTUVWXYZabcdefghijklmnopqrstuvwxyz0123456789+/`. -/
def encodeStd : Bytes :=
  [65, 66, 67, 68, 69, 70, 71, 72, 73, 74, 75, 76, 77, 78, 79, 80, 81, 82, 83, 84, 85, 86, 87,
   88, 89, 90,
   97, 98, 99, 100, 101, 102, 103, 104, 105, 106, 107, 108, 109, 110, 111, 112, 113, 114, 115,
   116, 117, 118, 119, 120, 121, 122,
   48, 49, 50, 51, 52, 53, 54, 55, 56, 57,
   43, 47]

/-- The padding character `'='` of `StdEncoding`. -/
def padChar : Byte := 61

/-- The table lookup `enc.encode[i]`. -/
def encodeChar (i : Nat) : Byte := encodeStd.getD i 0

/-- `base64.StdEncoding.EncodeToString`: three bytes become four characters; a
remainder of one or two bytes becomes two or three characters and padding. -/
def EncodeToString : Bytes → Bytes
  | [] => []
  | [a] =>
    let val := a.val <<< 16
    [encodeChar (val >>> 18 &&& 0x3F), encodeChar (val >>> 12 &&& 0x3F), padChar, padChar]
  | [a, b] =>
    let val := a.val <<< 16 ||| b.val <<< 8
    [encodeChar (val >>> 18 &&& 0x3F), encodeChar (val >>> 12 &&& 0x3F),
     encodeChar (val >>> 6 &&& 0x3F), padChar]
  | a :: b :: c :: rest =>
    let val := a.val <<< 16 ||| b.val <<< 8 ||| c.val
    encodeChar (val >>> 18 &&& 0x3F) :: encodeChar (val >>> 12 &&& 0x3F) ::
      encodeChar (val >>> 6 &&& 0x3F) :: encodeChar (val &&& 0x3F) :: EncodeToString rest

/-- The table `enc.decodeMap`: the position of a character in the alphabet,
`none` for the table's `0xff`. -/
def decodeMap (c : Byte) : Option Nat :=
  let i := encodeStd.indexOf c
  if i < encodeStd.length then some i else none

/-- The characters the decoder ignores: `'\n'` and `'\r'`. -/
def isNewline (c : Byte) : Bool := c == 10 || c == 13

/-- The loop `for si < len(src) && (src[si] == '\n' || src[si] == '\r') { si++ }`. -/
def skipNewlines (src : Bytes) : Bytes := src.dropWhile isNewline

/-- The tail of `decodeQuantum`: the `dlen - 1` bytes of a quantum that holds
`dlen` six-bit values. -/
def quantumBytes (dbuf : List Nat) : Bytes :=
  let val := dbuf.getD 0 0 <<< 18 ||| dbuf.getD 1 0 <<< 12 ||| dbuf.getD 2 0 <<< 6 |||
    dbuf.getD 3 0
  [toByte (val >>> 16), toByte (val >>> 8), toByte (val >>> 0)].take (dbuf.length - 1)

/-- The decoder of `StdEncoding` (padded, not strict), one input character per
step: `dbuf` holds the six-bit values of the quantum being read, `dst` the
bytes decoded so far.  `none` is a `CorruptInputError`. -/
def decodeLoop : Bytes → List Nat → Bytes → Option Bytes
  | [], dbuf, dst => if dbuf.length = 0 then some dst else none
  | c :: src, dbuf, dst =>
    match decodeMap c with
    | some out =>
      if dbuf.length = 3 then decodeLoop src [] (dst ++ quantumBytes (dbuf ++ [out]))
      else decodeLoop src (dbuf ++ [out]) dst
    | none =>
      if isNewline c then decodeLoop src dbuf dst
      else if c ≠ padChar then none
      else if dbuf.length < 2 then none
      else if dbuf.length = 2 then
        match skipNewlines src with
        | [] => none
        | c2 :: src2 =>
          if c2 ≠ padChar then none
          else if skipNewlines src2 = [] then some (dst ++ quantumBytes dbuf) else none
      else if skipNewlines src = [] then some (dst ++ quantumBytes dbuf) else none

/-- `base64.StdEncoding.DecodeString`, as far as the caller looks at it: the
decoded bytes, or `none` when the returned error is not nil. -/
def DecodeString (s : Bytes) : Option Bytes := decodeLoop s [] []

/-! ## The ordered store -/

/-- One record of the engine: physical key and value. -/
abbrev Entry := Bytes × Bytes

/-- The content of the engine, and of a transaction on it, in iteration order. -/
abbrev DB := List Entry

/-- The order `bytes.Compare(a, b) < 0` in which the engine keeps its keys. -/
def bytesLt : Bytes → Bytes → Bool
  | [], [] => false
  | [], _ :: _ => true
  | _ :: _, [] => false
  | a :: as, b :: bs => if a < b then true else if b < a then false else bytesLt as bs

/-- The keys of a store are strictly ascending: the engine's iteration order. -/
def Ordered (db : DB) : Prop := db.Pairwise (fun e₁ e₂ => bytesLt e₁.1 e₂.1 = true)

/-- `txn.Get(key)`: the value under `key`, `none` for `badger.ErrKeyNotFound`. -/
def txnGet (txn : DB) (key : Bytes) : Option Bytes := txn.lookup key

/-- `txn.SetEntry(badger.NewEntry(key, value))`: the record is written at its
place in key order, replacing a record of the same key. -/
def txnSetEntry (key value : Bytes) : DB → DB
  | [] => [(key, value)]
  | e :: txn =>
    if bytesLt key e.1 then (key, value) :: e :: txn
    else if key = e.1 then (key, value) :: txn
    else e :: txnSetEntry key value txn

/-- `txn.Delete(key)`: no record of `key` remains. -/
def txnDelete (key : Bytes) (txn : DB) : DB := txn.filter (fun e => e.1 ≠ key)

/-- `it.Seek(key)`: the iterator stands at the first record whose key is not
below `key`; the result is what is left to iterate. -/
def itSeek (key : Bytes) (txn : DB) : List Entry := txn.dropWhile (fun e => bytesLt e.1 key)

/-! ## Results -/

/-- The three error types of `operations.go`. -/
inductive Err
  | ErrKeyLimitReached
  | ErrDataTooBig
  | ErrKeyNotFound
  deriving DecidableEq, Repr

/-- What a call does: it panics, or it returns a value and an error (`none` is
Go's `nil` error). -/
inductive Ret (α : Type)
  | panic
  | ret (val : α) (err : Option Err)
  deriving DecidableEq, Repr

/-- `db.Update(fn)`: `fn` runs on a transaction over the current content; its
writes are committed when it returns a nil error and discarded otherwise. -/
def dbUpdate (db : DB) (fn : DB → Ret Unit × DB) : Ret Unit × DB :=
  match fn db with
  | (Ret.ret () none, txn) => (Ret.ret () none, txn)
  | (r, _) => (r, db)

/-- `db.View(fn)`: `fn` runs on a read-only transaction over the current content. -/
def dbView {α : Type} (db : DB) (fn : DB → Ret α) : Ret α := fn db

/-! ## config.go -/

structure StorageOptions where
  MaxKeysPerAccount : Nat
  MaxValueSizeBytes : Nat
  deriving DecidableEq, Repr

structure Config where
  StorageOptions : StorageOptions
  deriving DecidableEq, Repr

/-- The conversion `int(x)` of a `uint64` on a 64-bit platform: the same 64 bits
read as a signed integer. -/
def toInt (x : Nat) : Int :=
  if x % 2 ^ 64 < 2 ^ 63 then ((x % 2 ^ 64 : Nat) : Int) else ((x % 2 ^ 64 : Nat) : Int) - 2 ^ 64

/-! ## operations.go -/

/-- `strings.Split(s, sep)` for a one-byte separator. -/
def split (sep : Byte) : Bytes → List Bytes
  | [] => [[]]
  | c :: s =>
    if c = sep then [] :: split sep s
    else
      match split sep s with
      | [] => [[c]]
      | seg :: segs => (c :: seg) :: segs

/-- The loop of `keysForIdentifier` from the iterator's position on: it stops at
the first record that is not `ValidForPrefix`; `none` is the index-out-of-range
panic of `strings.Split(...)[2]`. -/
def keysLoop (pfx : Bytes) : List Entry → List Bytes → Option (List Bytes)
  | [], keys => some keys
  | item :: it, keys =>
    if pfx.isPrefixOf item.1 then
      match (split dash item.1)[2]? with
      | none => none
      | some encodedKey =>
        match DecodeString encodedKey with
        | none => keysLoop pfx it keys
        | some decodedKey => keysLoop pfx it (keys ++ [decodedKey])
    else some keys

/-- `keysForIdentifier(identifier, txn)`; `none` is a panic. -/
def keysForIdentifier (enc : Bytes → Bytes) (identifier : Bytes) (txn : DB) :
    Option (List Bytes) :=
  let encodedIdentifier := enc identifier
  let pfx := encodedIdentifier ++ storeTag
  keysLoop pfx (itSeek pfx txn) []

/-- `fullKey(identifier, key)`: `"%s-store-%s"`. -/
def fullKey (enc : Bytes → Bytes) (identifier key : Bytes) : Bytes :=
  let encodedIdentifier := enc identifier
  let encodedKey := EncodeToString key
  encodedIdentifier ++ storeTag ++ dash :: encodedKey

/-- `InsertKeyValueForIdentifier(s, config, identifier, key, value)`: the result
of the call and the content of the store after it.  A length is a non-negative
`int`, so `uint64(len(currentKeys))` is the length itself. -/
def InsertKeyValueForIdentifier (enc : Bytes → Bytes) (config : Config)
    (identifier key value : Bytes) (db : DB) : Ret Bytes × DB :=
  let fullKey := fullKey enc identifier key
  if config.StorageOptions.MaxValueSizeBytes > 0 ∧
      (value.length : Int) > toInt config.StorageOptions.MaxValueSizeBytes then
    (Ret.ret [] (some Err.ErrDataTooBig), db)
  else
    let r := dbUpdate db (fun txn =>
      match keysForIdentifier enc identifier txn with
      | none => (Ret.panic, txn)
      | some currentKeys =>
        if config.StorageOptions.MaxKeysPerAccount > 0 ∧
            currentKeys.length ≥ config.StorageOptions.MaxKeysPerAccount then
          (Ret.ret () (some Err.ErrKeyLimitReached), txn)
        else (Ret.ret () none, txnSetEntry fullKey value txn))
    match r with
    | (Ret.panic, db') => (Ret.panic, db')
    | (Ret.ret () err, db') => (Ret.ret fullKey err, db')

/-- `KeysForIdentifier(s, identifier)`. -/
def KeysForIdentifier (enc : Bytes → Bytes) (identifier : Bytes) (db : DB) : Ret (List Bytes) :=
  dbView db (fun txn =>
    match keysForIdentifier enc identifier txn with
    | none => Ret.panic
    | some result => Ret.ret result none)

/-- `RetrieveValueIdentifierAndKey(s, identifier, key)`. -/
def RetrieveValueIdentifierAndKey (enc : Bytes → Bytes) (identifier key : Bytes) (db : DB) :
    Ret Bytes :=
  let fullKey := fullKey enc identifier key
  dbView db (fun txn =>
    match txnGet txn fullKey with
    | none => Ret.ret [] (some Err.ErrKeyNotFound)
    | some v => Ret.ret ([] ++ v) none)

/-- `DeleteKeyValueForIdentifier(s, identifier, key)`: the result of the call and
the content of the store after it. -/
def DeleteKeyValueForIdentifier (enc : Bytes → Bytes) (identifier key : Bytes) (db : DB) :
    Ret Unit × DB :=
  let fullKey := fullKey enc identifier key
  dbUpdate db (fun txn =>
    match txnGet txn fullKey with
    | none => (Ret.ret () (some Err.ErrKeyNotFound), txn)
    | some _ => (Ret.ret () none, txnDelete fullKey txn))

/-! ## Sequences of calls -/

/-- One call of the storage layer. -/
inductive Call
  | Insert (config : Config) (identifier key value : Bytes)
  | Delete (identifier key : Bytes)
  | Retrieve (identifier key : Bytes)
  | List (identifier : Bytes)
  deriving DecidableEq, Repr

/-- The store after one call. -/
def step (enc : Bytes → Bytes) (db : DB) : Call → DB
  | Call.Insert config identifier key value =>
    (InsertKeyValueForIdentifier enc config identifier key value db).2
  | Call.Delete identifier key => (DeleteKeyValueForIdentifier enc identifier key db).2
  | Call.Retrieve _ _ => db
  | Call.List _ => db

/-- The store after a sequence of calls. -/
def run (enc : Bytes → Bytes) (db : DB) (calls : List Call) : DB := calls.foldl (step enc) db

/-! ## Store states and histories -/

/-- The persisted layout: every physical key of the store is the `fullKey` of an
account identifier and a logical key. -/
def WellFormed (enc : Bytes → Bytes) (db : DB) : Prop :=
  ∀ e ∈ db, ∃ identifier key, e.1 = fullKey enc identifier key

/-- What the body of the loop of `keysForIdentifier` reads off a physical key
that has a third segment: the decoded segment, `none` when it does not decode. -/
def logicalKey (wholeKey : Bytes) : Option Bytes :=
  ((split dash wholeKey)[2]?).bind DecodeString

/-- The call returned, with a nil error. -/
def Ret.succeeded {α : Type} : Ret α → Bool
  | Ret.ret _ none => true
  | _ => false

/-- Presence as the specification words it, read off the history and not off the
store: logical key `key` of account `identifier` is present after `calls` ran on
`db` when an `Insert` of it succeeded and no `Delete` of it succeeded since; `cur`
is whether it was present before the calls. -/
def presentAfter (enc : Bytes → Bytes) (identifier key : Bytes) : DB → List Call → Bool → Bool
  | _, [], cur => cur
  | db, call :: calls, cur =>
    let cur' :=
      match call with
      | Call.Insert config i k v =>
        if i = identifier ∧ k = key ∧
            (InsertKeyValueForIdentifier enc config i k v db).1.succeeded = true then true
        else cur
      | Call.Delete i k =>
        if i = identifier ∧ k = key ∧ (DeleteKeyValueForIdentifier enc i k db).1.succeeded = true
        then false
        else cur
      | _ => cur
    presentAfter enc identifier key (step enc db call) calls cur'

/-! ## Data of the tests -/

/-- The identifier `alice` of the tests. -/
def alice : Bytes := [97, 108, 105, 99, 101]

/-- A second identifier, `bob`. -/
def bob : Bytes := [98, 111, 98]

/-- The logical key `foo`. -/
def foo : Bytes := [102, 111, 111]

/-- The value `value` of the tests. -/
def someValue : Bytes := [118, 97, 108, 117, 101]

/-- `DefaultConfig()` of `test_common.go`: no limits. -/
def DefaultConfig : Config := ⟨⟨0, 0⟩⟩

/-- The configuration of `TestInsertionLimits`: two keys, ten bytes. -/
def limitsConfig : Config := ⟨⟨2, 10⟩⟩

/-- The store of `TestInsertionLimits` after its two successful inserts, of the
keys `1` and `2`. -/
def twoKeys : DB :=
  run EncodeToString []
    [Call.Insert limitsConfig alice [49] someValue, Call.Insert limitsConfig alice [50] someValue]

/-! ## The engine's own failures -/

/-- An error value as a caller of the storage layer receives it: one of the three
errors of `operations.go`, or an error of the engine. -/
inductive Failure
  | operation (e : Err)
  | engine
  deriving DecidableEq, Repr

/-- What a call does when the engine can fail: it panics, or it returns a value
and an error. -/
inductive Outcome (α : Type)
  | panic
  | ret (val : α) (err : Option Failure)
  deriving DecidableEq, Repr

/-- `db.View(fn)` on an engine that may be closed: a closed engine returns its
error (`badger.ErrDBClosed`) without running `fn`; an open one runs `fn` and
returns what `fn` returns.  `captured` holds the variables of the caller that
`fn` assigns to; `none` is a panic inside `fn`. -/
def dbViewOn {σ : Type} (closed : Bool) (db : DB) (captured : σ)
    (fn : DB → σ → Option (Option Failure × σ)) : Option (Option Failure × σ) :=
  if closed then some (some Failure.engine, captured) else fn db captured

/-- `KeysForIdentifier(s, identifier)` on an engine that may be closed.  The
variable `keys` is a pointer that starts as nil (`none`) and that only the
callback sets; the final `*keys` panics on nil. -/
def KeysForIdentifierOn (closed : Bool) (enc : Bytes → Bytes) (identifier : Bytes) (db : DB) :
    Outcome (List Bytes) :=
  let keys : Option (List Bytes) := none
  let r := dbViewOn closed db keys (fun txn _ =>
    match keysForIdentifier enc identifier txn with
    | none => none
    | some result => some (none, some result))
  match r with
  | none => Outcome.panic
  | some (err, keys) =>
    match keys with
    | none => Outcome.panic
    | some result => Outcome.ret result err

/-! ## Calls under one key-count limit -/

/-- Every `Insert` among the calls is made with `MaxKeysPerAccount = M`. -/
def insertsUseLimit (M : Nat) (calls : List Call) : Prop :=
  ∀ c ∈ calls, ∀ config i k v,
    c = Call.Insert config i k v → config.StorageOptions.MaxKeysPerAccount = M

/-! ## Stores with a malformed record -/

/-- The store of `TestInsertionLimits` with one more record, under the physical
key `YWxpY2U=-store`: it lies under the scan beginning of `alice` and has two
segments. -/
def twoSegmentStore : DB := txnSetEntry (EncodeToString alice ++ storeTag) someValue twoKeys

/-- The store of `TestInsertionLimits` with one more record, under the physical
key `YWxpY2U=-store-!`: it lies under the scan beginning of `alice` and its third
segment is not base64. -/
def undecodableStore : DB :=
  txnSetEntry (EncodeToString alice ++ storeTag ++ [dash, 33]) someValue twoKeys

/-! ## A store with a record of another writer -/

/-- A store whose one record has the physical key `YWxpY2U=-store-Zm9v-x`: it lies
under the scan beginning of `alice`, its third segment `Zm9v` is the base64 of
`foo`, and it is not the physical key of `foo`. -/
def foreignStore : DB :=
  [(EncodeToString alice ++ storeTag ++ dash :: EncodeToString foo ++ [dash, 120], someValue)]

/-! ## Facts about the base64 embedding -/

theorem decodeMap_encodeChar : ∀ i, i < 64 → decodeMap (encodeChar i) = some i := by decide

theorem encodeChar_ne_dash : ∀ i, i < 64 → encodeChar i ≠ dash := by decide

theorem decodeMap_padChar : decodeMap padChar = none := by decide

theorem or_shift_eq_add (a b i : Nat) (h : b < 2 ^ i) : a <<< i ||| b = a * 2 ^ i + b := by
  rw [Nat.shiftLeft_eq, Nat.mul_comm, ← Nat.mul_add_lt_is_or h]

theorem and_63 (x : Nat) : x &&& 0x3F = x % 64 := Nat.and_pow_two_sub_one_eq_mod x 6

/-- Three bytes packed into 24 bits. -/
theorem pack3 (a b c : Nat) (hb : b < 256) (hc : c < 256) :
    a <<< 16 ||| b <<< 8 ||| c = a * 65536 + b * 256 + c := by
  rw [Nat.or_assoc, or_shift_eq_add b c 8 (by omega),
    or_shift_eq_add a (b * 2 ^ 8 + c) 16 (by omega)]
  omega

/-- Four six-bit values packed into 24 bits. -/
theorem pack4 (d0 d1 d2 d3 : Nat) (h1 : d1 < 64) (h2 : d2 < 64) (h3 : d3 < 64) :
    d0 <<< 18 ||| d1 <<< 12 ||| d2 <<< 6 ||| d3 = d0 * 262144 + d1 * 4096 + d2 * 64 + d3 := by
  rw [Nat.or_assoc, Nat.or_assoc, or_shift_eq_add d2 d3 6 (by omega),
    or_shift_eq_add d1 (d2 * 2 ^ 6 + d3) 12 (by omega),
    or_shift_eq_add d0 _ 18 (by omega)]
  omega

/-- The quantum of three bytes decodes to the three bytes. -/
theorem quantum3 (a b c : Byte) :
    quantumBytes
      [(a.val <<< 16 ||| b.val <<< 8 ||| c.val) >>> 18 &&& 0x3F,
       (a.val <<< 16 ||| b.val <<< 8 ||| c.val) >>> 12 &&& 0x3F,
       (a.val <<< 16 ||| b.val <<< 8 ||| c.val) >>> 6 &&& 0x3F,
       (a.val <<< 16 ||| b.val <<< 8 ||| c.val) &&& 0x3F] = [a, b, c] := by
  have ha := a.isLt
  have hb := b.isLt
  have hc := c.isLt
  simp only [quantumBytes, List.getD_cons_zero, List.getD_cons_succ, pack3 _ _ _ hb hc, and_63,
    Nat.shiftRight_eq_div_pow]
  rw [pack4 _ _ _ _ (Nat.mod_lt _ (by decide)) (Nat.mod_lt _ (by decide))
    (Nat.mod_lt _ (by decide))]
  simp only [List.length_cons, List.length_nil, toByte]
  simp only [List.take, List.cons.injEq, and_true, Fin.ext_iff]
  refine ⟨?_, ?_, ?_⟩ <;> omega

/-- The quantum of a two-byte remainder decodes to the two bytes. -/
theorem quantum2 (a b : Byte) :
    quantumBytes
      [(a.val <<< 16 ||| b.val <<< 8) >>> 18 &&& 0x3F,
       (a.val <<< 16 ||| b.val <<< 8) >>> 12 &&& 0x3F,
       (a.val <<< 16 ||| b.val <<< 8) >>> 6 &&& 0x3F] = [a, b] := by
  have ha := a.isLt
  have hb := b.isLt
  have hp : a.val <<< 16 ||| b.val <<< 8 = a.val * 65536 + b.val * 256 := by
    rw [or_shift_eq_add _ _ 16 (by rw [Nat.shiftLeft_eq]; omega), Nat.shiftLeft_eq]
    omega
  simp only [quantumBytes, List.getD_cons_zero, List.getD_cons_succ, List.getD_nil, hp, and_63,
    Nat.shiftRight_eq_div_pow]
  rw [pack4 _ _ _ _ (Nat.mod_lt _ (by decide)) (Nat.mod_lt _ (by decide)) (by decide)]
  simp only [List.length_cons, List.length_nil, toByte]
  simp only [List.take, List.cons.injEq, and_true, Fin.ext_iff]
  refine ⟨?_, ?_⟩ <;> omega

/-- The quantum of a one-byte remainder decodes to the byte. -/
theorem quantum1 (a : Byte) :
    quantumBytes [(a.val <<< 16) >>> 18 &&& 0x3F, (a.val <<< 16) >>> 12 &&& 0x3F] = [a] := by
  have ha := a.isLt
  simp only [quantumBytes, List.getD_cons_zero, List.getD_cons_succ, List.getD_nil, and_63,
    Nat.shiftRight_eq_div_pow, Nat.shiftLeft_eq a.val]
  rw [pack4 _ _ _ _ (Nat.mod_lt _ (by decide)) (by decide) (by decide)]
  simp only [List.length_cons, List.length_nil, toByte]
  simp only [List.take, List.cons.injEq, and_true, Fin.ext_iff]
  omega

theorem and_63_lt (x : Nat) : x &&& 0x3F < 64 := by
  rw [and_63]; exact Nat.mod_lt _ (by decide)

theorem decodeMap_enc (x : Nat) : decodeMap (encodeChar (x &&& 0x3F)) = some (x &&& 0x3F) :=
  decodeMap_encodeChar _ (and_63_lt x)

/-- Decoding an encoding gives the bytes back, after whatever was decoded before. -/
theorem decodeLoop_EncodeToString (k dst : Bytes) :
    decodeLoop (EncodeToString k) [] dst = some (dst ++ k) := by
  induction k using EncodeToString.induct generalizing dst with
  | case1 => simp [EncodeToString, decodeLoop]
  | case2 a =>
    simp only [EncodeToString, decodeLoop, decodeMap_enc, decodeMap_padChar]
    simp [quantum1, skipNewlines, isNewline, padChar]
  | case3 a b =>
    simp only [EncodeToString, decodeLoop, decodeMap_enc, decodeMap_padChar]
    simp [quantum2, skipNewlines, isNewline, padChar]
  | case4 a b c rest ih =>
    simp only [EncodeToString, decodeLoop, decodeMap_enc]
    simp [quantum3, ih]

/-- `DecodeString` undoes `EncodeToString`, without an error. -/
theorem DecodeString_EncodeToString (k : Bytes) : DecodeString (EncodeToString k) = some k := by
  simp [DecodeString, decodeLoop_EncodeToString]

theorem EncodeToString_injective : Function.Injective EncodeToString := by
  intro k k' h
  have := DecodeString_EncodeToString k
  rw [h, DecodeString_EncodeToString] at this
  exact (Option.some.inj this).symm

theorem encodeChar_and_ne_dash (x : Nat) : encodeChar (x &&& 0x3F) ≠ dash :=
  encodeChar_ne_dash _ (and_63_lt x)

/-- No `'-'` in a base64 encoding. -/
theorem dash_not_mem_EncodeToString (k : Bytes) : dash ∉ EncodeToString k := by
  have hp : dash ≠ padChar := by decide
  induction k using EncodeToString.induct with
  | case1 => simp [EncodeToString]
  | case2 a =>
    simp only [EncodeToString, List.mem_cons, List.mem_nil_iff, or_false, not_or]
    exact ⟨(encodeChar_and_ne_dash _).symm, (encodeChar_and_ne_dash _).symm, hp, hp⟩
  | case3 a b =>
    simp only [EncodeToString, List.mem_cons, List.mem_nil_iff, or_false, not_or]
    exact ⟨(encodeChar_and_ne_dash _).symm, (encodeChar_and_ne_dash _).symm,
      (encodeChar_and_ne_dash _).symm, hp⟩
  | case4 a b c rest ih =>
    simp only [EncodeToString, List.mem_cons, not_or]
    exact ⟨(encodeChar_and_ne_dash _).symm, (encodeChar_and_ne_dash _).symm,
      (encodeChar_and_ne_dash _).symm, (encodeChar_and_ne_dash _).symm, ih⟩

/-! ## Facts about the key order -/

theorem bytesLt_irrefl (a : Bytes) : bytesLt a a = false := by
  induction a with
  | nil => rfl
  | cons x xs ih => simp [bytesLt, ih]

theorem bytesLt_cons (x y : Byte) (xs ys : Bytes) :
    bytesLt (x :: xs) (y :: ys) = true ↔ x < y ∨ (x = y ∧ bytesLt xs ys = true) := by
  simp only [bytesLt]
  rcases lt_trichotomy x y with h | h | h
  · simp [h]
  · subst h; simp
  · have h1 : ¬ x < y := not_lt_of_gt h
    have h2 : x ≠ y := ne_of_gt h
    simp [h1, h, h2]

theorem bytesLt_trans {a b c : Bytes} (hab : bytesLt a b = true) (hbc : bytesLt b c = true) :
    bytesLt a c = true := by
  induction a generalizing b c with
  | nil =>
    cases b with
    | nil => simp [bytesLt] at hab
    | cons y ys =>
      cases c with
      | nil => simp [bytesLt] at hbc
      | cons z zs => rfl
  | cons x xs ih =>
    cases b with
    | nil => simp [bytesLt] at hab
    | cons y ys =>
      cases c with
      | nil => simp [bytesLt] at hbc
      | cons z zs =>
        rw [bytesLt_cons] at hab hbc ⊢
        rcases hab with h1 | ⟨h1, h1'⟩
        · rcases hbc with h2 | ⟨h2, _⟩
          · exact Or.inl (lt_trans h1 h2)
          · exact Or.inl (h2 ▸ h1)
        · rcases hbc with h2 | ⟨h2, h2'⟩
          · exact Or.inl (h1 ▸ h2)
          · exact Or.inr ⟨h1.trans h2, ih h1' h2'⟩

theorem bytesLt_total {a b : Bytes} (h1 : bytesLt a b = false) (h2 : a ≠ b) :
    bytesLt b a = true := by
  induction a generalizing b with
  | nil =>
    cases b with
    | nil => exact absurd rfl h2
    | cons y ys => simp [bytesLt] at h1
  | cons x xs ih =>
    cases b with
    | nil => rfl
    | cons y ys =>
      rw [Bool.eq_false_iff, ne_eq, bytesLt_cons] at h1
      rw [bytesLt_cons]
      rcases lt_trichotomy x y with h | h | h
      · exact absurd (Or.inl h) h1
      · subst h
        refine Or.inr ⟨rfl, ih ?_ (fun hxs => h2 (by rw [hxs]))⟩
        rw [Bool.eq_false_iff]
        exact fun hlt => h1 (Or.inr ⟨rfl, hlt⟩)
      · exact Or.inl h

theorem bytesLt_of_isPrefixOf {p a : Bytes} (h : p.isPrefixOf a = true) : bytesLt a p = false := by
  induction p generalizing a with
  | nil => cases a <;> rfl
  | cons x ps ih =>
    cases a with
    | nil => simp at h
    | cons y as =>
      simp only [List.isPrefixOf, Bool.and_eq_true, beq_iff_eq] at h
      obtain ⟨hxy, hp⟩ := h
      subst hxy
      simp [bytesLt, ih hp]

/-- Past the last key with a given beginning, no key has that beginning. -/
theorem not_isPrefixOf_of_bytesLt {p a b : Bytes} (hpa : bytesLt a p = false)
    (hna : p.isPrefixOf a = false) (hab : bytesLt a b = true) : p.isPrefixOf b = false := by
  induction p generalizing a b with
  | nil => cases a <;> simp [List.isPrefixOf] at hna
  | cons x ps ih =>
    cases a with
    | nil => simp [bytesLt] at hpa
    | cons y as =>
      cases b with
      | nil => rfl
      | cons z bs =>
        rw [Bool.eq_false_iff, ne_eq, bytesLt_cons] at hpa
        rw [bytesLt_cons] at hab
        simp only [List.isPrefixOf, Bool.and_eq_false_iff, beq_eq_false_iff_ne, ne_eq] at hna ⊢
        by_cases hxz : x = z
        · subst hxz
          right
          rcases hab with h | ⟨h, hlt⟩
          · exact absurd (Or.inl h) hpa
          · subst h
            rcases hna with hna | hna
            · exact absurd rfl hna
            · refine ih ?_ hna hlt
              rw [Bool.eq_false_iff]
              exact fun h => hpa (Or.inr ⟨rfl, h⟩)
        · exact Or.inl hxz

/-! ## Facts about the engine -/

theorem txnGet_nil (k : Bytes) : txnGet [] k = none := rfl

theorem txnGet_cons (k ek ev : Bytes) (db : DB) :
    txnGet ((ek, ev) :: db) k = if k = ek then some ev else txnGet db k := by
  by_cases h : k = ek
  · subst h; simp [txnGet, List.lookup]
  · have h' : (k == ek) = false := by simpa using h
    simp [txnGet, List.lookup, h, h']

theorem txnGet_txnSetEntry (k v k' : Bytes) (db : DB) :
    txnGet (txnSetEntry k v db) k' = if k' = k then some v else txnGet db k' := by
  induction db with
  | nil => simp [txnSetEntry, txnGet_cons, txnGet_nil]
  | cons e db ih =>
    obtain ⟨ek, ev⟩ := e
    simp only [txnSetEntry]
    split_ifs with h1 h2 h3 h4 h5
    · simp [txnGet_cons, h2]
    · simp [txnGet_cons, h2]
    · subst h3; simp [txnGet_cons, h4]
    · subst h3; simp [txnGet_cons, h4]
    · subst h5
      have h6 : ¬ k' = ek := h3
      simp [txnGet_cons, h6, ih]
    · simp [txnGet_cons, ih, h5]

theorem txnGet_txnDelete (k k' : Bytes) (db : DB) :
    txnGet (txnDelete k db) k' = if k' = k then none else txnGet db k' := by
  induction db with
  | nil => simp [txnDelete, txnGet_nil]
  | cons e db ih =>
    obtain ⟨ek, ev⟩ := e
    simp only [txnDelete] at ih ⊢
    by_cases h1 : ek = k
    · subst h1
      simp only [List.filter, ne_eq, not_true_eq_false, decide_False, txnGet_cons, ih]
      split_ifs <;> rfl
    · simp only [List.filter, ne_eq, h1, not_false_eq_true, decide_True, txnGet_cons, ih]
      split_ifs with h2 h3 <;> first
        | rfl
        | (exfalso; exact h1 (h2 ▸ h3))

theorem mem_txnSetEntry {k v : Bytes} {db : DB} {e : Entry} (h : e ∈ txnSetEntry k v db) :
    e = (k, v) ∨ e ∈ db := by
  induction db with
  | nil => simpa [txnSetEntry] using h
  | cons e' db ih =>
    simp only [txnSetEntry] at h
    split_ifs at h with h1 h2
    · simpa using h
    · rcases List.mem_cons.1 h with h | h
      · exact Or.inl h
      · exact Or.inr (List.mem_cons_of_mem _ h)
    · rcases List.mem_cons.1 h with h | h
      · exact Or.inr (h ▸ List.mem_cons_self _ _)
      · rcases ih h with h | h
        · exact Or.inl h
        · exact Or.inr (List.mem_cons_of_mem _ h)

theorem mem_txnDelete {k : Bytes} {db : DB} {e : Entry} (h : e ∈ txnDelete k db) :
    e ∈ db ∧ e.1 ≠ k := by
  simpa [txnDelete] using h

theorem Ordered_txnDelete {db : DB} (k : Bytes) (h : Ordered db) : Ordered (txnDelete k db) :=
  List.Pairwise.filter _ h

theorem Ordered_txnSetEntry {db : DB} (k v : Bytes) (h : Ordered db) :
    Ordered (txnSetEntry k v db) := by
  induction db with
  | nil => simp [txnSetEntry, Ordered]
  | cons e db ih =>
    have hcons := List.pairwise_cons.1 h
    simp only [txnSetEntry]
    split_ifs with h1 h2
    · refine List.pairwise_cons.2 ⟨?_, h⟩
      intro e' he'
      rcases List.mem_cons.1 he' with he' | he'
      · rw [he']; exact h1
      · exact bytesLt_trans h1 (hcons.1 e' he')
    · refine List.pairwise_cons.2 ⟨?_, hcons.2⟩
      intro e' he'
      rw [h2]
      exact hcons.1 e' he'
    · refine List.pairwise_cons.2 ⟨?_, ih hcons.2⟩
      intro e' he'
      rcases mem_txnSetEntry he' with he' | he'
      · rw [he']
        exact bytesLt_total (by simpa using h1) h2
      · exact hcons.1 e' he'

/-! ## Facts about `strings.Split` and `fullKey` -/

theorem split_ne_nil (sep : Byte) (s : Bytes) : split sep s ≠ [] := by
  cases s with
  | nil => simp [split]
  | cons c s =>
    simp only [split]
    split_ifs
    · simp
    · split <;> simp

theorem split_of_not_mem {sep : Byte} {s : Bytes} (h : sep ∉ s) : split sep s = [s] := by
  induction s with
  | nil => rfl
  | cons c s ih =>
    have hc : c ≠ sep := fun hc => h (hc ▸ List.mem_cons_self _ _)
    have hs : sep ∉ s := fun hs => h (List.mem_cons_of_mem _ hs)
    simp [split, hc, ih hs]

theorem split_append {sep : Byte} {a : Bytes} (b : Bytes) (h : sep ∉ a) :
    split sep (a ++ sep :: b) = a :: split sep b := by
  induction a with
  | nil => simp [split]
  | cons c a ih =>
    have hc : c ≠ sep := fun hc => h (hc ▸ List.mem_cons_self _ _)
    have hs : sep ∉ a := fun hs => h (List.mem_cons_of_mem _ hs)
    simp [split, hc, ih hs]

/-- `strings.Split` returns one segment more than there are separators. -/
theorem length_split (sep : Byte) (s : Bytes) : (split sep s).length = s.count sep + 1 := by
  induction s with
  | nil => rfl
  | cons c s ih =>
    by_cases hc : c = sep
    · subst hc
      simp [split, ih]
    · have hne := split_ne_nil sep s
      have hc' : (c == sep) = false := by simpa using hc
      simp only [split, hc, if_false, List.count_cons, hc', Bool.false_eq_true, add_zero]
      rw [← ih]
      split
      · rename_i heq; exact absurd heq hne
      · rename_i heq; rw [heq]; simp

/-- A physical key written by `fullKey` has at least three segments. -/
theorem three_le_length_split_fullKey (enc : Bytes → Bytes) (identifier key : Bytes) :
    3 ≤ (split dash (fullKey enc identifier key)).length := by
  rw [length_split]
  simp only [fullKey, storeTag, List.count_append, List.count_cons, dash]
  simp
  omega

/-- With an identifier encoding free of `'-'`, the segments of a physical key are
the encoded identifier, `store` and the encoded logical key. -/
theorem split_fullKey {enc : Bytes → Bytes} (hdash : ∀ a, dash ∉ enc a)
    (identifier key : Bytes) :
    split dash (fullKey enc identifier key) =
      [enc identifier, [115, 116, 111, 114, 101], EncodeToString key] := by
  have h1 : fullKey enc identifier key =
      enc identifier ++ dash :: ([115, 116, 111, 114, 101] ++ dash :: EncodeToString key) := by
    simp [fullKey, storeTag, dash]
  have h2 : dash ∉ ([115, 116, 111, 114, 101] : Bytes) := by decide
  rw [h1, split_append _ (hdash identifier), split_append _ h2,
    split_of_not_mem (dash_not_mem_EncodeToString key)]

theorem logicalKey_fullKey {enc : Bytes → Bytes} (hdash : ∀ a, dash ∉ enc a)
    (identifier key : Bytes) : logicalKey (fullKey enc identifier key) = some key := by
  simp [logicalKey, split_fullKey hdash, DecodeString_EncodeToString]

/-- The part of a physical key before its last `'-'` and the part after it
determine the two arguments of `fullKey`. -/
theorem append_dash_inj {a a' b b' : Bytes} (hb : dash ∉ b) (hb' : dash ∉ b')
    (h : a ++ dash :: b = a' ++ dash :: b') : a = a' ∧ b = b' := by
  induction a generalizing a' with
  | nil =>
    cases a' with
    | nil => simpa using h
    | cons c a' =>
      simp only [List.nil_append, List.cons_append, List.cons.injEq] at h
      exact absurd (h.2 ▸ List.mem_append_right a' (List.mem_cons_self _ _) : dash ∈ b) hb
  | cons c a ih =>
    cases a' with
    | nil =>
      simp only [List.nil_append, List.cons_append, List.cons.injEq] at h
      exact absurd (h.2 ▸ List.mem_append_right a (List.mem_cons_self _ _) : dash ∈ b') hb'
    | cons c' a' =>
      simp only [List.cons_append, List.cons.injEq] at h
      obtain ⟨h1, h2⟩ := ih h.2
      exact ⟨by rw [h.1, h1], h2⟩

/-- `fullKey` is injective as soon as the identifier encoding is. -/
theorem fullKey_inj {enc : Bytes → Bytes} (hinj : Function.Injective enc)
    {identifier identifier' key key' : Bytes}
    (h : fullKey enc identifier key = fullKey enc identifier' key') :
    identifier = identifier' ∧ key = key' := by
  simp only [fullKey] at h
  obtain ⟨h1, h2⟩ := append_dash_inj (dash_not_mem_EncodeToString key)
    (dash_not_mem_EncodeToString key') h
  exact ⟨hinj (List.append_cancel_right h1), EncodeToString_injective h2⟩

theorem isPrefixOf_fullKey (enc : Bytes → Bytes) (identifier key : Bytes) :
    (enc identifier ++ storeTag).isPrefixOf (fullKey enc identifier key) = true := by
  rw [List.isPrefixOf_iff_prefix]
  exact List.prefix_append _ _

/-- Two beginnings that end at their first `'-'` and start the same key are equal. -/
theorem eq_of_beginning_dash {a a' x y : Bytes} (ha : dash ∉ a) (ha' : dash ∉ a')
    (h : a ++ dash :: x <+: a' ++ dash :: y) : a = a' := by
  induction a generalizing a' with
  | nil =>
    cases a' with
    | nil => rfl
    | cons c a' =>
      obtain ⟨t, ht⟩ := h
      simp only [List.nil_append, List.cons_append, List.cons.injEq] at ht
      exact absurd (ht.1 ▸ List.mem_cons_self _ _ : dash ∈ c :: a') ha'
  | cons c a ih =>
    cases a' with
    | nil =>
      obtain ⟨t, ht⟩ := h
      simp only [List.nil_append, List.cons_append, List.cons.injEq] at ht
      exact absurd (ht.1 ▸ List.mem_cons_self _ _ : dash ∈ c :: a) ha
    | cons c' a' =>
      obtain ⟨t, ht⟩ := h
      simp only [List.cons_append, List.cons.injEq] at ht
      have := ih (fun hm => ha (List.mem_cons_of_mem _ hm))
        (fun hm => ha' (List.mem_cons_of_mem _ hm)) ⟨t, ht.2⟩
      rw [ht.1, this]

/-- With an identifier encoding free of `'-'`, a physical key lies under the scan
beginning of an account only when it was written for the same encoded
identifier. -/
theorem enc_eq_of_isPrefixOf_fullKey {enc : Bytes → Bytes} (hdash : ∀ a, dash ∉ enc a)
    {identifier identifier' key : Bytes}
    (h : (enc identifier ++ storeTag).isPrefixOf (fullKey enc identifier' key) = true) :
    enc identifier = enc identifier' := by
  rw [List.isPrefixOf_iff_prefix] at h
  have h1 : enc identifier ++ storeTag = enc identifier ++ dash :: [115, 116, 111, 114, 101] := by
    simp [storeTag, dash]
  have h2 : fullKey enc identifier' key =
      enc identifier' ++ dash :: ([115, 116, 111, 114, 101] ++ dash :: EncodeToString key) := by
    simp [fullKey, storeTag, dash]
  rw [h1, h2] at h
  exact eq_of_beginning_dash (hdash identifier) (hdash identifier') h

/-! ## Facts about the scan of `keysForIdentifier` -/

/-- The loop reads the records up to the first one outside the scanned beginning. -/
theorem keysLoop_takeWhile (pfx : Bytes) (it : List Entry) (keys : List Bytes) :
    keysLoop pfx it keys = keysLoop pfx (it.takeWhile (fun e => pfx.isPrefixOf e.1)) keys := by
  induction it generalizing keys with
  | nil => rfl
  | cons e it ih =>
    by_cases h : pfx.isPrefixOf e.1 = true
    · simp only [List.takeWhile_cons, h, if_true, keysLoop]
      split
      · rfl
      · split
        · exact ih _
        · exact ih _
    · simp [List.takeWhile_cons, h, keysLoop]

/-- The loop over records that all lie under the scanned beginning and all have a
third segment: it returns the keys that decode, in order. -/
theorem keysLoop_eq (pfx : Bytes) (it : List Entry) (keys : List Bytes)
    (h : ∀ e ∈ it, pfx.isPrefixOf e.1 = true ∧ 3 ≤ (split dash e.1).length) :
    keysLoop pfx it keys = some (keys ++ it.filterMap (fun e => logicalKey e.1)) := by
  induction it generalizing keys with
  | nil => simp [keysLoop]
  | cons e it ih =>
    obtain ⟨hp, h3⟩ := h e (List.mem_cons_self _ _)
    have hit := fun e' he' => h e' (List.mem_cons_of_mem _ he')
    have hget : ∃ seg, (split dash e.1)[2]? = some seg := by
      rcases hs : (split dash e.1)[2]? with _ | seg
      · rw [List.getElem?_eq_none_iff] at hs; omega
      · exact ⟨seg, rfl⟩
    obtain ⟨seg, hseg⟩ := hget
    simp only [keysLoop, hp, if_true, hseg]
    rcases hd : DecodeString seg with _ | d
    · simp [ih _ hit, List.filterMap_cons, logicalKey, hseg, hd]
    · simp [ih _ hit, List.filterMap_cons, logicalKey, hseg, hd]

theorem itSeek_sublist (pfx : Bytes) (db : DB) : (itSeek pfx db).Sublist db :=
  List.dropWhile_sublist _

/-- The records the scan reads are records of the store under the scanned
beginning. -/
theorem mem_scan {pfx : Bytes} {db : DB} {e : Entry}
    (h : e ∈ (itSeek pfx db).takeWhile (fun e => pfx.isPrefixOf e.1)) :
    e ∈ db ∧ pfx.isPrefixOf e.1 = true :=
  ⟨(itSeek_sublist pfx db).subset ((List.takeWhile_sublist _).subset h),
    List.mem_takeWhile_imp (p := fun e : Entry => pfx.isPrefixOf e.1) h⟩

theorem takeWhile_eq_filter_of_ge {pfx : Bytes} {l : List Entry} (hord : Ordered l)
    (hge : ∀ e ∈ l, bytesLt e.1 pfx = false) :
    l.takeWhile (fun e => pfx.isPrefixOf e.1) = l.filter (fun e => pfx.isPrefixOf e.1) := by
  induction l with
  | nil => rfl
  | cons e l ih =>
    have hcons := List.pairwise_cons.1 hord
    have hl := ih hcons.2 (fun e' he' => hge e' (List.mem_cons_of_mem _ he'))
    by_cases h : pfx.isPrefixOf e.1 = true
    · simp [List.takeWhile_cons, List.filter_cons, h, hl]
    · have hnil : l.filter (fun e => pfx.isPrefixOf e.1) = [] := by
        rw [List.filter_eq_nil_iff]
        intro e' he'
        have := not_isPrefixOf_of_bytesLt (hge e (List.mem_cons_self _ _))
          (Bool.eq_false_iff.2 h) (hcons.1 e' he')
        simp [this]
      simp [List.takeWhile_cons, List.filter_cons, h, hnil]

/-- On an ordered store the scan reads exactly the records under the scanned
beginning. -/
theorem scan_eq_filter {pfx : Bytes} {db : DB} (hord : Ordered db) :
    (itSeek pfx db).takeWhile (fun e => pfx.isPrefixOf e.1) =
      db.filter (fun e => pfx.isPrefixOf e.1) := by
  induction db with
  | nil => rfl
  | cons e db ih =>
    have hcons := List.pairwise_cons.1 hord
    by_cases h : bytesLt e.1 pfx = true
    · have hp : pfx.isPrefixOf e.1 = false := by
        by_contra hp
        have := bytesLt_of_isPrefixOf (by simpa using hp : pfx.isPrefixOf e.1 = true)
        rw [this] at h
        exact Bool.false_ne_true h
      have hseek : itSeek pfx (e :: db) = itSeek pfx db := by
        simp [itSeek, List.dropWhile_cons, h]
      rw [hseek, ih hcons.2]
      simp [List.filter_cons, hp]
    · have hseek : itSeek pfx (e :: db) = e :: db := by
        simp [itSeek, List.dropWhile_cons, h]
      rw [hseek]
      apply takeWhile_eq_filter_of_ge hord
      intro e' he'
      rcases List.mem_cons.1 he' with he' | he'
      · rw [he']; simpa using h
      · by_contra hlt
        exact h (bytesLt_trans (hcons.1 e' he') (by simpa using hlt))

theorem keysForIdentifier_eq_scan (enc : Bytes → Bytes) (identifier : Bytes) (db : DB) :
    keysForIdentifier enc identifier db =
      keysLoop (enc identifier ++ storeTag)
        ((itSeek (enc identifier ++ storeTag) db).takeWhile
          (fun e => (enc identifier ++ storeTag).isPrefixOf e.1)) [] := by
  simp only [keysForIdentifier]
  exact keysLoop_takeWhile _ _ _

/-- On an ordered store `keysForIdentifier` is its loop body run over the records
under the account's scan beginning. -/
theorem keysForIdentifier_eq_filter (enc : Bytes → Bytes) (identifier : Bytes) {db : DB}
    (hord : Ordered db) :
    keysForIdentifier enc identifier db =
      keysLoop (enc identifier ++ storeTag)
        (db.filter (fun e => (enc identifier ++ storeTag).isPrefixOf e.1)) [] := by
  rw [keysForIdentifier_eq_scan, scan_eq_filter hord]

/-- On a store in the persisted layout `keysForIdentifier` does not panic: it
returns the keys that decode, of the records it scans. -/
theorem keysForIdentifier_of_wellFormed (enc : Bytes → Bytes) (identifier : Bytes) {db : DB}
    (hwf : WellFormed enc db) :
    keysForIdentifier enc identifier db =
      some (((itSeek (enc identifier ++ storeTag) db).takeWhile
        (fun e => (enc identifier ++ storeTag).isPrefixOf e.1)).filterMap
          (fun e => logicalKey e.1)) := by
  rw [keysForIdentifier_eq_scan, keysLoop_eq]
  · simp
  · intro e he
    obtain ⟨hdb, hp⟩ := mem_scan he
    obtain ⟨i, k, hk⟩ := hwf e hdb
    exact ⟨hp, hk ▸ three_le_length_split_fullKey enc i k⟩

/-! ## Facts about the four operations -/

theorem toInt_of_lt {x : Nat} (h : x < 2 ^ 63) : toInt x = (x : Int) := by
  have h1 : x % 2 ^ 64 = x := Nat.mod_eq_of_lt (by omega)
  unfold toInt
  rw [h1, if_pos h]

/-- The size check of `InsertKeyValueForIdentifier` lets a value pass when no limit
is set, or when the value is within a limit that an `int` can hold. -/
theorem size_check_passes {config : Config} {value : Bytes}
    (h : config.StorageOptions.MaxValueSizeBytes = 0 ∨
      (value.length ≤ config.StorageOptions.MaxValueSizeBytes ∧
        config.StorageOptions.MaxValueSizeBytes < 2 ^ 63)) :
    ¬ (config.StorageOptions.MaxValueSizeBytes > 0 ∧
      (value.length : Int) > toInt config.StorageOptions.MaxValueSizeBytes) := by
  rintro ⟨h1, h2⟩
  rcases h with h | ⟨h3, h4⟩
  · omega
  · rw [toInt_of_lt h4] at h2
    omega

theorem Insert_of_tooBig (enc : Bytes → Bytes) {config : Config} (identifier key : Bytes)
    {value : Bytes} (db : DB)
    (h : config.StorageOptions.MaxValueSizeBytes > 0 ∧
      (value.length : Int) > toInt config.StorageOptions.MaxValueSizeBytes) :
    InsertKeyValueForIdentifier enc config identifier key value db =
      (Ret.ret [] (some Err.ErrDataTooBig), db) := by
  simp only [InsertKeyValueForIdentifier]
  rw [if_pos h]

theorem Insert_of_keys (enc : Bytes → Bytes) {config : Config} (identifier key : Bytes)
    {value : Bytes} {db : DB} {keys : List Bytes}
    (h : ¬ (config.StorageOptions.MaxValueSizeBytes > 0 ∧
      (value.length : Int) > toInt config.StorageOptions.MaxValueSizeBytes))
    (hk : keysForIdentifier enc identifier db = some keys) :
    InsertKeyValueForIdentifier enc config identifier key value db =
      if config.StorageOptions.MaxKeysPerAccount > 0 ∧
          keys.length ≥ config.StorageOptions.MaxKeysPerAccount then
        (Ret.ret (fullKey enc identifier key) (some Err.ErrKeyLimitReached), db)
      else
        (Ret.ret (fullKey enc identifier key) none,
          txnSetEntry (fullKey enc identifier key) value db) := by
  simp only [InsertKeyValueForIdentifier]
  rw [if_neg h]
  simp only [dbUpdate, hk]
  split_ifs <;> rfl

theorem Insert_of_panic (enc : Bytes → Bytes) {config : Config} (identifier key : Bytes)
    {value : Bytes} {db : DB}
    (h : ¬ (config.StorageOptions.MaxValueSizeBytes > 0 ∧
      (value.length : Int) > toInt config.StorageOptions.MaxValueSizeBytes))
    (hk : keysForIdentifier enc identifier db = none) :
    InsertKeyValueForIdentifier enc config identifier key value db = (Ret.panic, db) := by
  simp only [InsertKeyValueForIdentifier]
  rw [if_neg h]
  simp only [dbUpdate, hk]

/-- What `InsertKeyValueForIdentifier` leaves in the store: the store it found, or
that store with the one record written. -/
theorem Insert_snd (enc : Bytes → Bytes) (config : Config) (identifier key value : Bytes)
    (db : DB) :
    (InsertKeyValueForIdentifier enc config identifier key value db).2 = db ∨
      ((InsertKeyValueForIdentifier enc config identifier key value db).1 =
          Ret.ret (fullKey enc identifier key) none ∧
        (InsertKeyValueForIdentifier enc config identifier key value db).2 =
          txnSetEntry (fullKey enc identifier key) value db) := by
  by_cases h : config.StorageOptions.MaxValueSizeBytes > 0 ∧
      (value.length : Int) > toInt config.StorageOptions.MaxValueSizeBytes
  · rw [Insert_of_tooBig enc identifier key db h]; exact Or.inl rfl
  · rcases hk : keysForIdentifier enc identifier db with _ | keys
    · rw [Insert_of_panic enc identifier key h hk]; exact Or.inl rfl
    · rw [Insert_of_keys enc identifier key h hk]
      split_ifs
      · exact Or.inl rfl
      · exact Or.inr ⟨rfl, rfl⟩

theorem Retrieve_eq (enc : Bytes → Bytes) (identifier key : Bytes) (db : DB) :
    RetrieveValueIdentifierAndKey enc identifier key db =
      match txnGet db (fullKey enc identifier key) with
      | none => Ret.ret [] (some Err.ErrKeyNotFound)
      | some v => Ret.ret v none := by
  simp only [RetrieveValueIdentifierAndKey, dbView]
  split <;> simp

theorem Delete_of_none (enc : Bytes → Bytes) (identifier key : Bytes) {db : DB}
    (h : txnGet db (fullKey enc identifier key) = none) :
    DeleteKeyValueForIdentifier enc identifier key db =
      (Ret.ret () (some Err.ErrKeyNotFound), db) := by
  simp [DeleteKeyValueForIdentifier, dbUpdate, h]

theorem Delete_of_some (enc : Bytes → Bytes) (identifier key : Bytes) {db : DB} {v : Bytes}
    (h : txnGet db (fullKey enc identifier key) = some v) :
    DeleteKeyValueForIdentifier enc identifier key db =
      (Ret.ret () none, txnDelete (fullKey enc identifier key) db) := by
  simp [DeleteKeyValueForIdentifier, dbUpdate, h]

theorem Delete_snd (enc : Bytes → Bytes) (identifier key : Bytes) (db : DB) :
    (DeleteKeyValueForIdentifier enc identifier key db).2 = db ∨
      (DeleteKeyValueForIdentifier enc identifier key db).2 =
        txnDelete (fullKey enc identifier key) db := by
  rcases h : txnGet db (fullKey enc identifier key) with _ | v
  · rw [Delete_of_none enc identifier key h]; exact Or.inl rfl
  · rw [Delete_of_some enc identifier key h]; exact Or.inr rfl

theorem KeysForIdentifier_eq (enc : Bytes → Bytes) (identifier : Bytes) (db : DB) :
    KeysForIdentifier enc identifier db =
      match keysForIdentifier enc identifier db with
      | none => Ret.panic
      | some result => Ret.ret result none := rfl

/-- Insert then retrieve, for a size limit that an `int` can hold and no key-count
limit, on a store in the persisted layout: the insert succeeds and the value
comes back. -/
theorem insert_then_retrieve (enc : Bytes → Bytes) {config : Config}
    (identifier key value : Bytes) {db : DB} (hwf : WellFormed enc db)
    (hsize : config.StorageOptions.MaxValueSizeBytes = 0 ∨
      (value.length ≤ config.StorageOptions.MaxValueSizeBytes ∧
        config.StorageOptions.MaxValueSizeBytes < 2 ^ 63))
    (hcount : config.StorageOptions.MaxKeysPerAccount = 0) :
    (InsertKeyValueForIdentifier enc config identifier key value db).1 =
        Ret.ret (fullKey enc identifier key) none ∧
      RetrieveValueIdentifierAndKey enc identifier key
        (InsertKeyValueForIdentifier enc config identifier key value db).2 =
        Ret.ret value none := by
  rw [Insert_of_keys enc identifier key (size_check_passes hsize)
    (keysForIdentifier_of_wellFormed enc identifier hwf)]
  simp only [hcount, gt_iff_lt, lt_self_iff_false, false_and, if_false]
  refine ⟨trivial, ?_⟩
  rw [Retrieve_eq, txnGet_txnSetEntry]
  simp

/-- With a size limit that an `int` can hold, an account at its key-count limit
gets `ErrKeyLimitReached`, and the store stays as it was. -/
theorem insert_at_key_limit (enc : Bytes → Bytes) {config : Config}
    (identifier key value : Bytes) {db : DB} {keys : List Bytes}
    (hM : 0 < config.StorageOptions.MaxKeysPerAccount)
    (hkeys : keysForIdentifier enc identifier db = some keys)
    (hlen : config.StorageOptions.MaxKeysPerAccount ≤ keys.length)
    (hsize : config.StorageOptions.MaxValueSizeBytes = 0 ∨
      (value.length ≤ config.StorageOptions.MaxValueSizeBytes ∧
        config.StorageOptions.MaxValueSizeBytes < 2 ^ 63)) :
    InsertKeyValueForIdentifier enc config identifier key value db =
      (Ret.ret (fullKey enc identifier key) (some Err.ErrKeyLimitReached), db) := by
  rw [Insert_of_keys enc identifier key (size_check_passes hsize) hkeys, if_pos ⟨hM, hlen⟩]

/-- With a size limit that an `int` can hold, an account below its key-count limit
has its record written. -/
theorem insert_below_key_limit (enc : Bytes → Bytes) {config : Config}
    (identifier key value : Bytes) {db : DB} {keys : List Bytes}
    (hkeys : keysForIdentifier enc identifier db = some keys)
    (hlen : keys.length < config.StorageOptions.MaxKeysPerAccount)
    (hsize : config.StorageOptions.MaxValueSizeBytes = 0 ∨
      (value.length ≤ config.StorageOptions.MaxValueSizeBytes ∧
        config.StorageOptions.MaxValueSizeBytes < 2 ^ 63)) :
    InsertKeyValueForIdentifier enc config identifier key value db =
      (Ret.ret (fullKey enc identifier key) none,
        txnSetEntry (fullKey enc identifier key) value db) := by
  rw [Insert_of_keys enc identifier key (size_check_passes hsize) hkeys,
    if_neg (fun h => by omega)]

theorem twoKeys_eq :
    twoKeys =
      [(fullKey EncodeToString alice [49], someValue),
       (fullKey EncodeToString alice [50], someValue)] := by
  decide

theorem keysForIdentifier_twoKeys :
    keysForIdentifier EncodeToString alice twoKeys = some [[49], [50]] := by
  decide

/-- The four ways `InsertKeyValueForIdentifier` ends. -/
theorem Insert_cases (enc : Bytes → Bytes) (config : Config) (identifier key value : Bytes)
    (db : DB) :
    InsertKeyValueForIdentifier enc config identifier key value db =
        (Ret.ret [] (some Err.ErrDataTooBig), db) ∨
      InsertKeyValueForIdentifier enc config identifier key value db = (Ret.panic, db) ∨
      InsertKeyValueForIdentifier enc config identifier key value db =
        (Ret.ret (fullKey enc identifier key) (some Err.ErrKeyLimitReached), db) ∨
      InsertKeyValueForIdentifier enc config identifier key value db =
        (Ret.ret (fullKey enc identifier key) none,
          txnSetEntry (fullKey enc identifier key) value db) := by
  by_cases h : config.StorageOptions.MaxValueSizeBytes > 0 ∧
      (value.length : Int) > toInt config.StorageOptions.MaxValueSizeBytes
  · exact Or.inl (Insert_of_tooBig enc identifier key db h)
  · rcases hk : keysForIdentifier enc identifier db with _ | keys
    · exact Or.inr (Or.inl (Insert_of_panic enc identifier key h hk))
    · rw [Insert_of_keys enc identifier key h hk]
      split_ifs
      · exact Or.inr (Or.inr (Or.inl rfl))
      · exact Or.inr (Or.inr (Or.inr rfl))

/-- An insert that returns without an error has written its record. -/
theorem Insert_of_succeeded {enc : Bytes → Bytes} {config : Config}
    {identifier key value : Bytes} {db : DB}
    (h : (InsertKeyValueForIdentifier enc config identifier key value db).1.succeeded = true) :
    InsertKeyValueForIdentifier enc config identifier key value db =
      (Ret.ret (fullKey enc identifier key) none,
        txnSetEntry (fullKey enc identifier key) value db) := by
  rcases Insert_cases enc config identifier key value db with h' | h' | h' | h'
  · rw [h'] at h; simp [Ret.succeeded] at h
  · rw [h'] at h; simp [Ret.succeeded] at h
  · rw [h'] at h; simp [Ret.succeeded] at h
  · exact h'

theorem WellFormed_txnSetEntry {enc : Bytes → Bytes} {db : DB} (identifier key value : Bytes)
    (h : WellFormed enc db) :
    WellFormed enc (txnSetEntry (fullKey enc identifier key) value db) := by
  intro e he
  rcases mem_txnSetEntry he with he | he
  · exact ⟨identifier, key, by rw [he]⟩
  · exact h e he

theorem WellFormed_txnDelete {enc : Bytes → Bytes} {db : DB} (k : Bytes)
    (h : WellFormed enc db) : WellFormed enc (txnDelete k db) :=
  fun e he => h e (mem_txnDelete he).1

/-- On a store in the persisted layout, with an identifier encoding free of
`'-'`, a logical key that `keysForIdentifier` returns has its physical key in
the store. -/
theorem fullKey_mem_of_mem_keys {enc : Bytes → Bytes} (hdash : ∀ a, dash ∉ enc a)
    {identifier key : Bytes} {db : DB} (hwf : WellFormed enc db) {keys : List Bytes}
    (hkeys : keysForIdentifier enc identifier db = some keys) (hkey : key ∈ keys) :
    ∃ e ∈ db, e.1 = fullKey enc identifier key := by
  rw [keysForIdentifier_of_wellFormed enc identifier hwf] at hkeys
  have hkeys' := Option.some.inj hkeys
  rw [← hkeys', List.mem_filterMap] at hkey
  obtain ⟨e, he, hlog⟩ := hkey
  obtain ⟨hdb, hp⟩ := mem_scan he
  obtain ⟨i, k, hk⟩ := hwf e hdb
  rw [hk, logicalKey_fullKey hdash] at hlog
  rw [hk] at hp
  have henc := enc_eq_of_isPrefixOf_fullKey hdash hp
  refine ⟨e, hdb, ?_⟩
  rw [hk, ← Option.some.inj hlog]
  simp only [fullKey, henc]

theorem filter_txnSetEntry_of_not {p : Bytes → Bool} {k : Bytes} (v : Bytes) (db : DB)
    (hk : p k = false) :
    (txnSetEntry k v db).filter (fun e => p e.1) = db.filter (fun e => p e.1) := by
  induction db with
  | nil => simp [txnSetEntry, List.filter_cons, hk]
  | cons e db ih =>
    simp only [txnSetEntry]
    split_ifs with h1 h2
    · simp [List.filter_cons, hk]
    · have : p e.1 = false := h2 ▸ hk
      simp [List.filter_cons, hk, this]
    · simp only [List.filter_cons, ih]

theorem filter_txnDelete_of_not {p : Bytes → Bool} {k : Bytes} (db : DB) (hk : p k = false) :
    (txnDelete k db).filter (fun e => p e.1) = db.filter (fun e => p e.1) := by
  simp only [txnDelete, List.filter_filter]
  apply List.filter_congr
  intro e _
  by_cases h : e.1 = k
  · simp [h, hk]
  · simp [h]

/-- With an injective identifier encoding free of `'-'`, a physical key of one
account does not lie under the scan beginning of another. -/
theorem not_isPrefixOf_fullKey_of_ne {enc : Bytes → Bytes} (hinj : Function.Injective enc)
    (hdash : ∀ a, dash ∉ enc a) {a b : Bytes} (hab : a ≠ b) (key : Bytes) :
    (enc b ++ storeTag).isPrefixOf (fullKey enc a key) = false := by
  rw [Bool.eq_false_iff]
  intro h
  exact hab (hinj (enc_eq_of_isPrefixOf_fullKey hdash h)).symm

/-- Writing a record of one account does not change what `keysForIdentifier`
returns for another. -/
theorem keysForIdentifier_txnSetEntry_of_ne {enc : Bytes → Bytes}
    (hinj : Function.Injective enc) (hdash : ∀ a, dash ∉ enc a) {a b : Bytes} (hab : a ≠ b)
    (key value : Bytes) {db : DB} (hord : Ordered db) :
    keysForIdentifier enc b (txnSetEntry (fullKey enc a key) value db) =
      keysForIdentifier enc b db := by
  rw [keysForIdentifier_eq_filter enc b (Ordered_txnSetEntry _ _ hord),
    keysForIdentifier_eq_filter enc b hord,
    filter_txnSetEntry_of_not (p := fun k => (enc b ++ storeTag).isPrefixOf k) value db
      (not_isPrefixOf_fullKey_of_ne hinj hdash hab key)]

/-- Deleting a record of one account does not change what `keysForIdentifier`
returns for another. -/
theorem keysForIdentifier_txnDelete_of_ne {enc : Bytes → Bytes}
    (hinj : Function.Injective enc) (hdash : ∀ a, dash ∉ enc a) {a b : Bytes} (hab : a ≠ b)
    (key : Bytes) {db : DB} (hord : Ordered db) :
    keysForIdentifier enc b (txnDelete (fullKey enc a key) db) =
      keysForIdentifier enc b db := by
  rw [keysForIdentifier_eq_filter enc b (Ordered_txnDelete _ hord),
    keysForIdentifier_eq_filter enc b hord,
    filter_txnDelete_of_not (p := fun k => (enc b ++ storeTag).isPrefixOf k) db
      (not_isPrefixOf_fullKey_of_ne hinj hdash hab key)]

theorem Ordered_twoKeys : Ordered twoKeys := by
  rw [twoKeys_eq]
  simp only [Ordered, List.pairwise_cons, List.mem_cons, List.mem_nil_iff, or_false,
    forall_eq, List.not_mem_nil, false_implies, implies_true, List.Pairwise.nil, and_true]
  decide

/-! ## Facts about histories -/

theorem step_Ordered {enc : Bytes → Bytes} {db : DB} (call : Call) (h : Ordered db) :
    Ordered (step enc db call) := by
  cases call with
  | Insert config identifier key value =>
    simp only [step]
    rcases Insert_snd enc config identifier key value db with h' | ⟨_, h'⟩
    · rw [h']; exact h
    · rw [h']; exact Ordered_txnSetEntry _ _ h
  | Delete identifier key =>
    simp only [step]
    rcases Delete_snd enc identifier key db with h' | h'
    · rw [h']; exact h
    · rw [h']; exact Ordered_txnDelete _ h
  | Retrieve identifier key => exact h
  | List identifier => exact h

theorem step_WellFormed {enc : Bytes → Bytes} {db : DB} (call : Call) (h : WellFormed enc db) :
    WellFormed enc (step enc db call) := by
  cases call with
  | Insert config identifier key value =>
    simp only [step]
    rcases Insert_snd enc config identifier key value db with h' | ⟨_, h'⟩
    · rw [h']; exact h
    · rw [h']; exact WellFormed_txnSetEntry _ _ _ h
  | Delete identifier key =>
    simp only [step]
    rcases Delete_snd enc identifier key db with h' | h'
    · rw [h']; exact h
    · rw [h']; exact WellFormed_txnDelete _ h
  | Retrieve identifier key => exact h
  | List identifier => exact h

theorem run_cons (enc : Bytes → Bytes) (db : DB) (call : Call) (calls : List Call) :
    run enc db (call :: calls) = run enc (step enc db call) calls := rfl

/-- Every store that the calls produce from an ordered store is ordered. -/
theorem run_Ordered {enc : Bytes → Bytes} (calls : List Call) {db : DB} (h : Ordered db) :
    Ordered (run enc db calls) := by
  induction calls generalizing db with
  | nil => exact h
  | cons call calls ih => exact ih (step_Ordered call h)

/-- Every store that the calls produce from a store in the persisted layout is in
the persisted layout. -/
theorem run_WellFormed {enc : Bytes → Bytes} (calls : List Call) {db : DB}
    (h : WellFormed enc db) : WellFormed enc (run enc db calls) := by
  induction calls generalizing db with
  | nil => exact h
  | cons call calls ih => exact ih (step_WellFormed call h)

theorem txnGet_isSome_iff (db : DB) (k : Bytes) :
    (txnGet db k).isSome = true ↔ ∃ e ∈ db, e.1 = k := by
  induction db with
  | nil => simp [txnGet_nil]
  | cons e db ih =>
    obtain ⟨ek, ev⟩ := e
    rw [txnGet_cons]
    by_cases h : k = ek
    · subst h; simp
    · rw [if_neg h, ih]
      constructor
      · rintro ⟨e, he, hk⟩
        exact ⟨e, List.mem_cons_of_mem _ he, hk⟩
      · rintro ⟨e, he, hk⟩
        rcases List.mem_cons.1 he with he | he
        · exact absurd (by rw [← hk, he]) h
        · exact ⟨e, he, hk⟩

/-- On an ordered store in the persisted layout, with an identifier encoding free
of `'-'`, `keysForIdentifier` returns the decoded keys of the records under the
account's scan beginning. -/
theorem keysForIdentifier_eq_filterMap (enc : Bytes → Bytes) (identifier : Bytes) {db : DB}
    (hwf : WellFormed enc db) (hord : Ordered db) :
    keysForIdentifier enc identifier db =
      some ((db.filter (fun e => (enc identifier ++ storeTag).isPrefixOf e.1)).filterMap
        (fun e => logicalKey e.1)) := by
  rw [keysForIdentifier_of_wellFormed enc identifier hwf, scan_eq_filter hord]

/-- The keys `keysForIdentifier` returns are the logical keys whose physical key
is in the store. -/
theorem mem_keys_iff {enc : Bytes → Bytes} (hdash : ∀ a, dash ∉ enc a)
    (identifier key : Bytes) {db : DB} (hwf : WellFormed enc db) (hord : Ordered db) :
    key ∈ (db.filter (fun e => (enc identifier ++ storeTag).isPrefixOf e.1)).filterMap
        (fun e => logicalKey e.1) ↔
      (txnGet db (fullKey enc identifier key)).isSome = true := by
  rw [txnGet_isSome_iff]
  constructor
  · intro h
    exact fullKey_mem_of_mem_keys hdash hwf (keysForIdentifier_eq_filterMap enc identifier hwf hord) h
  · rintro ⟨e, he, hk⟩
    rw [List.mem_filterMap]
    refine ⟨e, ?_, ?_⟩
    · rw [List.mem_filter]
      exact ⟨he, by rw [hk]; exact isPrefixOf_fullKey enc identifier key⟩
    · rw [hk, logicalKey_fullKey hdash]

/-- No logical key is returned twice. -/
theorem keys_nodup {enc : Bytes → Bytes} (hdash : ∀ a, dash ∉ enc a)
    (identifier : Bytes) {db : DB} (hwf : WellFormed enc db) (hord : Ordered db) :
    ((db.filter (fun e => (enc identifier ++ storeTag).isPrefixOf e.1)).filterMap
        (fun e => logicalKey e.1)).Nodup := by
  rw [List.Nodup, List.pairwise_filterMap]
  have hf : Ordered (db.filter (fun e => (enc identifier ++ storeTag).isPrefixOf e.1)) :=
    List.Pairwise.filter _ hord
  refine List.Pairwise.imp_of_mem ?_ hf
  intro e e' he he' hlt k hk k' hk' hkk
  rw [List.mem_filter] at he he'
  obtain ⟨i, x, hx⟩ := hwf e he.1
  obtain ⟨i', x', hx'⟩ := hwf e' he'.1
  have hp := he.2
  have hp' := he'.2
  rw [hx] at hp
  rw [hx'] at hp'
  have h1 := enc_eq_of_isPrefixOf_fullKey hdash hp
  have h2 := enc_eq_of_isPrefixOf_fullKey hdash hp'
  rw [Option.mem_def, hx, logicalKey_fullKey hdash] at hk
  rw [Option.mem_def, hx', logicalKey_fullKey hdash] at hk'
  have hxx : x = x' := by
    rw [Option.some.inj hk, Option.some.inj hk', hkk]
  have hee : e.1 = e'.1 := by
    rw [hx, hx']
    simp only [fullKey, ← h1, ← h2, hxx]
  rw [hee, bytesLt_irrefl] at hlt
  exact Bool.false_ne_true hlt

/-- The history of a logical key and the store agree: with an injective
identifier encoding the key is present after the calls exactly when its physical
key is in the store the calls produce. -/
theorem presentAfter_eq {enc : Bytes → Bytes} (hinj : Function.Injective enc)
    (identifier key : Bytes) (calls : List Call) (db : DB) :
    presentAfter enc identifier key db calls (txnGet db (fullKey enc identifier key)).isSome =
      (txnGet (run enc db calls) (fullKey enc identifier key)).isSome := by
  induction calls generalizing db with
  | nil => rfl
  | cons call calls ih =>
    rw [run_cons, ← ih (step enc db call)]
    simp only [presentAfter]
    congr 1
    cases call with
    | Insert config i k v =>
      simp only [step]
      rcases Insert_cases enc config i k v db with h | h | h | h
      · rw [h]; simp [Ret.succeeded]
      · rw [h]; simp [Ret.succeeded]
      · rw [h]; simp [Ret.succeeded]
      · rw [h, txnGet_txnSetEntry]
        by_cases hk : fullKey enc identifier key = fullKey enc i k
        · obtain ⟨h1, h2⟩ := fullKey_inj hinj hk
          simp [Ret.succeeded, h1, h2]
        · have : ¬ (i = identifier ∧ k = key) := fun hh => hk (by rw [hh.1, hh.2])
          simp only [Ret.succeeded, and_true, this, if_false, hk]
    | Delete i k =>
      simp only [step]
      rcases hg : txnGet db (fullKey enc i k) with _ | v
      · rw [Delete_of_none enc i k hg]; simp [Ret.succeeded]
      · rw [Delete_of_some enc i k hg, txnGet_txnDelete]
        by_cases hk : fullKey enc identifier key = fullKey enc i k
        · obtain ⟨h1, h2⟩ := fullKey_inj hinj hk
          simp [Ret.succeeded, h1, h2]
        · have : ¬ (i = identifier ∧ k = key) := fun hh => hk (by rw [hh.1, hh.2])
          simp only [Ret.succeeded, and_true, this, if_false, hk]
    | Retrieve i k => rfl
    | List i => rfl

/-- A key of an account for which no insert was called is not present. -/
theorem presentAfter_of_no_insert (enc : Bytes → Bytes) (identifier key : Bytes)
    (calls : List Call) (db : DB)
    (h : ∀ c ∈ calls, ∀ config k v, c ≠ Call.Insert config identifier k v) :
    presentAfter enc identifier key db calls false = false := by
  induction calls generalizing db with
  | nil => rfl
  | cons call calls ih =>
    have hc := h call (List.mem_cons_self _ _)
    have ht := fun c hc' => h c (List.mem_cons_of_mem _ hc')
    simp only [presentAfter]
    cases call with
    | Insert config i k v =>
      have hi : i ≠ identifier := fun hi => hc config k v (by rw [hi])
      simp only [hi, false_and, if_false]
      exact ih _ ht
    | Delete i k =>
      simp only [ite_self]
      exact ih _ ht
    | Retrieve i k => exact ih _ ht
    | List i => exact ih _ ht

theorem WellFormed_nil (enc : Bytes → Bytes) : WellFormed enc [] := by
  intro e he
  cases he

/-! ## Facts for malformed records and a failing engine -/

/-- Where every record under the account's scan beginning has a third segment,
`keysForIdentifier` does not panic: it returns the keys that decode and leaves
out the records whose third segment does not. -/
theorem keysForIdentifier_of_three_segments (enc : Bytes → Bytes) (identifier : Bytes)
    {db : DB}
    (h : ∀ e ∈ db, (enc identifier ++ storeTag).isPrefixOf e.1 = true →
      3 ≤ (split dash e.1).length) :
    keysForIdentifier enc identifier db =
      some (((itSeek (enc identifier ++ storeTag) db).takeWhile
        (fun e => (enc identifier ++ storeTag).isPrefixOf e.1)).filterMap
          (fun e => logicalKey e.1)) := by
  rw [keysForIdentifier_eq_scan, keysLoop_eq]
  · simp
  · intro e he
    obtain ⟨hdb, hp⟩ := mem_scan he
    exact ⟨hp, h e hdb hp⟩

/-- On an open engine `KeysForIdentifierOn` is `KeysForIdentifier`. -/
theorem KeysForIdentifierOn_open (enc : Bytes → Bytes) (identifier : Bytes) (db : DB) :
    KeysForIdentifierOn false enc identifier db =
      match KeysForIdentifier enc identifier db with
      | Ret.panic => Outcome.panic
      | Ret.ret keys err => Outcome.ret keys (err.map Failure.operation) := by
  rw [KeysForIdentifier_eq]
  simp only [KeysForIdentifierOn, dbViewOn]
  rcases keysForIdentifier enc identifier db with _ | keys <;> rfl

/-! ## Facts about the number of listed keys -/

theorem length_filterMap_cons_le {β : Type} (g : Entry → Option β) (a : Entry)
    (l : List Entry) : (List.filterMap g (a :: l)).length ≤ (List.filterMap g l).length + 1 := by
  rw [List.filterMap_cons]
  split <;> simp

/-- Writing one record adds at most one entry to what a scan that looks only at
the keys returns. -/
theorem length_filterMap_txnSetEntry_le {β : Type} (g : Entry → Option β)
    (hg : ∀ e e' : Entry, e.1 = e'.1 → g e = g e') (k v : Bytes) (db : DB) :
    ((txnSetEntry k v db).filterMap g).length ≤ (db.filterMap g).length + 1 := by
  induction db with
  | nil => exact length_filterMap_cons_le g (k, v) []
  | cons e db ih =>
    simp only [txnSetEntry]
    split_ifs with h1 h2
    · exact length_filterMap_cons_le g _ _
    · have hkv : g (k, v) = g e := hg _ _ h2
      rw [List.filterMap_cons, List.filterMap_cons, hkv]
      rcases g e with _ | b <;> simp
    · rw [List.filterMap_cons, List.filterMap_cons]
      rcases g e with _ | b
      · exact ih
      · simpa using ih

/-- Deleting a record adds nothing to what a scan returns. -/
theorem length_filterMap_txnDelete_le {β : Type} (g : Entry → Option β) (k : Bytes) (db : DB) :
    ((txnDelete k db).filterMap g).length ≤ (db.filterMap g).length :=
  ((List.filter_sublist db).filterMap g).length_le

/-- One call keeps the number of listed keys within the limit: on an ordered store
in the persisted layout where no account lists more than `M` keys, after a call
whose insert, if it is one, uses the limit `M > 0`, no account lists more than
`M` keys. -/
theorem step_count_le {enc : Bytes → Bytes} (hinj : Function.Injective enc)
    (hdash : ∀ a, dash ∉ enc a) {M : Nat} (hM : 0 < M) {db : DB} (call : Call)
    (hcall : ∀ config i k v,
      call = Call.Insert config i k v → config.StorageOptions.MaxKeysPerAccount = M)
    (hord : Ordered db) (hwf : WellFormed enc db)
    (hcount : ∀ a, ((db.filter (fun e => (enc a ++ storeTag).isPrefixOf e.1)).filterMap
      (fun e => logicalKey e.1)).length ≤ M) (a : Bytes) :
    (((step enc db call).filter (fun e => (enc a ++ storeTag).isPrefixOf e.1)).filterMap
      (fun e => logicalKey e.1)).length ≤ M := by
  cases call with
  | Insert config i k v =>
    have hcfg := hcall config i k v rfl
    simp only [step]
    by_cases hbig : config.StorageOptions.MaxValueSizeBytes > 0 ∧
        (v.length : Int) > toInt config.StorageOptions.MaxValueSizeBytes
    · rw [Insert_of_tooBig enc i k db hbig]
      exact hcount a
    · rw [Insert_of_keys enc i k hbig (keysForIdentifier_eq_filterMap enc i hwf hord)]
      split_ifs with hlim
      · exact hcount a
      · by_cases hai : i = a
        · subst hai
          have hlt : ((db.filter (fun e => (enc i ++ storeTag).isPrefixOf e.1)).filterMap
              (fun e => logicalKey e.1)).length < M := by
            rw [hcfg] at hlim
            by_contra hge
            exact hlim ⟨hM, Nat.le_of_not_lt hge⟩
          rw [List.filterMap_filter] at hlt ⊢
          have hle := length_filterMap_txnSetEntry_le
            (fun e : Entry => if (enc i ++ storeTag).isPrefixOf e.1 = true then logicalKey e.1
              else none)
            (fun e e' h => by simp only [h]) (fullKey enc i k) v db
          exact Nat.le_trans hle hlt
        · rw [filter_txnSetEntry_of_not (p := fun x => (enc a ++ storeTag).isPrefixOf x) v db
            (not_isPrefixOf_fullKey_of_ne hinj hdash hai k)]
          exact hcount a
  | Delete i k =>
    simp only [step]
    rcases Delete_snd enc i k db with h | h
    · rw [h]; exact hcount a
    · rw [h, List.filterMap_filter]
      have := hcount a
      rw [List.filterMap_filter] at this
      exact Nat.le_trans (length_filterMap_txnDelete_le _ _ _) this
  | Retrieve i k => exact hcount a
  | List i => exact hcount a

/-- From a store in which no account lists more than `M` keys, calls whose inserts
all use the limit `M > 0` produce such a store. -/
theorem run_count_le {enc : Bytes → Bytes} (hinj : Function.Injective enc)
    (hdash : ∀ a, dash ∉ enc a) {M : Nat} (hM : 0 < M) (calls : List Call) {db : DB}
    (hcalls : insertsUseLimit M calls) (hord : Ordered db) (hwf : WellFormed enc db)
    (hcount : ∀ a, ((db.filter (fun e => (enc a ++ storeTag).isPrefixOf e.1)).filterMap
      (fun e => logicalKey e.1)).length ≤ M) (a : Bytes) :
    (((run enc db calls).filter (fun e => (enc a ++ storeTag).isPrefixOf e.1)).filterMap
      (fun e => logicalKey e.1)).length ≤ M := by
  induction calls generalizing db a with
  | nil => exact hcount a
  | cons call calls ih =>
    rw [run_cons]
    have hcall : ∀ config i k v,
        call = Call.Insert config i k v → config.StorageOptions.MaxKeysPerAccount = M :=
      hcalls call (List.mem_cons_self _ _)
    exact ih (fun c hc => hcalls c (List.mem_cons_of_mem _ hc)) (step_Ordered call hord)
      (step_WellFormed call hwf)
      (fun b => step_count_le hinj hdash hM call hcall hord hwf hcount b) a

/-! ## Facts about an insert followed by a delete -/

/-- Deleting the key that was just written leaves the store without its records
of that key. -/
theorem txnDelete_txnSetEntry (k v : Bytes) (db : DB) :
    txnDelete k (txnSetEntry k v db) = txnDelete k db := by
  induction db with
  | nil => simp [txnSetEntry, txnDelete]
  | cons e db ih =>
    simp only [txnSetEntry]
    split_ifs with h1 h2
    · simp [txnDelete, List.filter_cons]
    · simp [txnDelete, List.filter_cons, ← h2]
    · simp only [txnDelete, List.filter_cons] at ih ⊢
      rw [ih]

/-- A loop that returns has found a third segment in every record it read. -/
theorem three_le_of_keysLoop_eq_some {pfx : Bytes} {it : List Entry} {keys result : List Bytes}
    (hp : ∀ e ∈ it, pfx.isPrefixOf e.1 = true) (h : keysLoop pfx it keys = some result) :
    ∀ e ∈ it, 3 ≤ (split dash e.1).length := by
  induction it generalizing keys with
  | nil => intro e he; cases he
  | cons e it ih =>
    have hpe := hp e (List.mem_cons_self _ _)
    have hpt := fun e' he' => hp e' (List.mem_cons_of_mem _ he')
    simp only [keysLoop, hpe, if_true] at h
    rcases hs : (split dash e.1)[2]? with _ | seg
    · rw [hs] at h; simp at h
    · rw [hs] at h
      have h3 : 3 ≤ (split dash e.1).length := by
        by_contra hlt
        have : (split dash e.1)[2]? = none := List.getElem?_eq_none_iff.2 (by omega)
        rw [this] at hs
        exact Option.noConfusion hs
      intro e' he'
      rcases List.mem_cons.1 he' with he' | he'
      · rw [he']; exact h3
      · simp only at h
        rcases hd : DecodeString seg with _ | d
        · rw [hd] at h; exact ih hpt h e' he'
        · rw [hd] at h; exact ih hpt h e' he'

/-- An insert that returns without an error has listed the keys of the account
without a panic. -/
theorem keysForIdentifier_isSome_of_succeeded {enc : Bytes → Bytes} {config : Config}
    {identifier key value : Bytes} {db : DB}
    (h : (InsertKeyValueForIdentifier enc config identifier key value db).1.succeeded = true) :
    ∃ keys, keysForIdentifier enc identifier db = some keys := by
  by_cases hbig : config.StorageOptions.MaxValueSizeBytes > 0 ∧
      (value.length : Int) > toInt config.StorageOptions.MaxValueSizeBytes
  · rw [Insert_of_tooBig enc identifier key db hbig] at h
    simp [Ret.succeeded] at h
  · rcases hk : keysForIdentifier enc identifier db with _ | keys
    · rw [Insert_of_panic enc identifier key hbig hk] at h
      simp [Ret.succeeded] at h
    · exact ⟨keys, rfl⟩

/-! ## The claims -/

/-- C1, at the failing input: with `MaxValueSizeBytes = 2^63` and no key-count
limit the empty value is within the limit, yet `InsertKeyValueForIdentifier`
returns `ErrDataTooBig`, writes nothing, and the `Retrieve` that follows fails
with `ErrKeyNotFound`. -/
theorem C1_insert_rejected_at_int_overflow (enc : Bytes → Bytes) (identifier key : Bytes) :
    ([] : Bytes).length ≤ (Config.mk ⟨0, 2 ^ 63⟩).StorageOptions.MaxValueSizeBytes ∧
    (Config.mk ⟨0, 2 ^ 63⟩).StorageOptions.MaxKeysPerAccount = 0 ∧
    InsertKeyValueForIdentifier enc ⟨⟨0, 2 ^ 63⟩⟩ identifier key [] [] =
      (Ret.ret [] (some Err.ErrDataTooBig), []) ∧
    RetrieveValueIdentifierAndKey enc identifier key
      (InsertKeyValueForIdentifier enc ⟨⟨0, 2 ^ 63⟩⟩ identifier key [] []).2 =
      Ret.ret [] (some Err.ErrKeyNotFound) := by
  have h : InsertKeyValueForIdentifier enc ⟨⟨0, 2 ^ 63⟩⟩ identifier key [] [] =
      (Ret.ret [] (some Err.ErrDataTooBig), []) :=
    Insert_of_tooBig enc identifier key [] (by decide)
  refine ⟨by decide, rfl, h, ?_⟩
  rw [h, Retrieve_eq]
  rfl

/-- C2, at the failing input: `alice` lists two keys, the limit is
`MaxKeysPerAccount = 2`, the key `3` is not among them and the empty value is
within `MaxValueSizeBytes = 2^63`; `InsertKeyValueForIdentifier` returns
`ErrDataTooBig`, not `ErrKeyLimitReached`. -/
theorem C2_data_too_big_before_key_limit :
    keysForIdentifier EncodeToString alice twoKeys = some [[49], [50]] ∧
    (Config.mk ⟨2, 2 ^ 63⟩).StorageOptions.MaxKeysPerAccount ≤ [[49], [50]].length ∧
    ([51] : Bytes) ∉ ([[49], [50]] : List Bytes) ∧
    ([] : Bytes).length ≤ (Config.mk ⟨2, 2 ^ 63⟩).StorageOptions.MaxValueSizeBytes ∧
    (InsertKeyValueForIdentifier EncodeToString ⟨⟨2, 2 ^ 63⟩⟩ alice [51] [] twoKeys).1 =
      Ret.ret [] (some Err.ErrDataTooBig) := by
  refine ⟨keysForIdentifier_twoKeys, by decide, by decide, by decide, ?_⟩
  rw [Insert_of_tooBig EncodeToString alice [51] twoKeys (by decide)]

/-- C3, counterexample: `alice` holds the two keys `1` and `2` under
`MaxKeysPerAccount = 2`; overwriting key `2` with a five-byte value returns
`ErrKeyLimitReached`, and `Retrieve` still returns the old value. -/
theorem C3_overwrite_blocked :
    keysForIdentifier EncodeToString alice twoKeys = some [[49], [50]] ∧
    (InsertKeyValueForIdentifier EncodeToString limitsConfig alice [50] [1, 2, 3, 4, 5]
        twoKeys).1 =
      Ret.ret (fullKey EncodeToString alice [50]) (some Err.ErrKeyLimitReached) ∧
    RetrieveValueIdentifierAndKey EncodeToString alice [50]
        (InsertKeyValueForIdentifier EncodeToString limitsConfig alice [50] [1, 2, 3, 4, 5]
          twoKeys).2 =
      Ret.ret someValue none := by
  have h : InsertKeyValueForIdentifier EncodeToString limitsConfig alice [50] [1, 2, 3, 4, 5]
      twoKeys =
      (Ret.ret (fullKey EncodeToString alice [50]) (some Err.ErrKeyLimitReached), twoKeys) :=
    insert_at_key_limit EncodeToString alice [50] [1, 2, 3, 4, 5] (by decide)
      keysForIdentifier_twoKeys (by decide) (Or.inr (by decide))
  rw [h]
  refine ⟨keysForIdentifier_twoKeys, rfl, ?_⟩
  rw [Retrieve_eq, twoKeys_eq]
  decide

/-- C3, amended: the key-count check does not look at the key being written.
When the account lists at least `MaxKeysPerAccount = M > 0` keys, an insert of a
key it already holds, with a value within a size limit that an `int` can hold,
returns `ErrKeyLimitReached` and leaves the store as it was, so `Retrieve` still
returns the old value; when it lists fewer than `M` keys the overwrite succeeds
and `Retrieve` returns the new value. -/
theorem C3_overwrite_only_below_limit (enc : Bytes → Bytes) (config : Config)
    (identifier key value old : Bytes) (db : DB) (keys : List Bytes)
    (hM : 0 < config.StorageOptions.MaxKeysPerAccount)
    (hkeys : keysForIdentifier enc identifier db = some keys)
    (hold : RetrieveValueIdentifierAndKey enc identifier key db = Ret.ret old none)
    (hsize : config.StorageOptions.MaxValueSizeBytes = 0 ∨
      (value.length ≤ config.StorageOptions.MaxValueSizeBytes ∧
        config.StorageOptions.MaxValueSizeBytes < 2 ^ 63)) :
    (config.StorageOptions.MaxKeysPerAccount ≤ keys.length →
      InsertKeyValueForIdentifier enc config identifier key value db =
          (Ret.ret (fullKey enc identifier key) (some Err.ErrKeyLimitReached), db) ∧
        RetrieveValueIdentifierAndKey enc identifier key
          (InsertKeyValueForIdentifier enc config identifier key value db).2 =
          Ret.ret old none) ∧
    (keys.length < config.StorageOptions.MaxKeysPerAccount →
      (InsertKeyValueForIdentifier enc config identifier key value db).1 =
          Ret.ret (fullKey enc identifier key) none ∧
        RetrieveValueIdentifierAndKey enc identifier key
          (InsertKeyValueForIdentifier enc config identifier key value db).2 =
          Ret.ret value none) := by
  constructor
  · intro hlen
    rw [insert_at_key_limit enc identifier key value hM hkeys hlen hsize]
    exact ⟨rfl, hold⟩
  · intro hlen
    rw [insert_below_key_limit enc identifier key value hkeys hlen hsize]
    refine ⟨rfl, ?_⟩
    rw [Retrieve_eq, txnGet_txnSetEntry]
    simp

/-- C3, amended, at the store of `TestInsertionLimits`. -/
theorem C3_overwrite_only_below_limit_witness :
    (0 < limitsConfig.StorageOptions.MaxKeysPerAccount ∧
      keysForIdentifier EncodeToString alice twoKeys = some [[49], [50]] ∧
      RetrieveValueIdentifierAndKey EncodeToString alice [50] twoKeys =
        Ret.ret someValue none) ∧
    ((limitsConfig.StorageOptions.MaxKeysPerAccount ≤ ([[49], [50]] : List Bytes).length →
      InsertKeyValueForIdentifier EncodeToString limitsConfig alice [50] [1, 2, 3, 4, 5]
          twoKeys =
          (Ret.ret (fullKey EncodeToString alice [50]) (some Err.ErrKeyLimitReached), twoKeys) ∧
        RetrieveValueIdentifierAndKey EncodeToString alice [50]
          (InsertKeyValueForIdentifier EncodeToString limitsConfig alice [50] [1, 2, 3, 4, 5]
            twoKeys).2 =
          Ret.ret someValue none) ∧
    (([[49], [50]] : List Bytes).length < limitsConfig.StorageOptions.MaxKeysPerAccount →
      (InsertKeyValueForIdentifier EncodeToString limitsConfig alice [50] [1, 2, 3, 4, 5]
          twoKeys).1 =
          Ret.ret (fullKey EncodeToString alice [50]) none ∧
        RetrieveValueIdentifierAndKey EncodeToString alice [50]
          (InsertKeyValueForIdentifier EncodeToString limitsConfig alice [50] [1, 2, 3, 4, 5]
            twoKeys).2 =
          Ret.ret [1, 2, 3, 4, 5] none)) :=
  have hold : RetrieveValueIdentifierAndKey EncodeToString alice [50] twoKeys =
      Ret.ret someValue none := by
    rw [Retrieve_eq, twoKeys_eq]
    decide
  ⟨⟨by decide, keysForIdentifier_twoKeys, hold⟩,
    C3_overwrite_only_below_limit EncodeToString limitsConfig alice [50] [1, 2, 3, 4, 5]
      someValue twoKeys [[49], [50]] (by decide) keysForIdentifier_twoKeys hold
      (Or.inr (by decide))⟩

/-- C4: the size check compares `len(value)` with `int(MaxValueSizeBytes)`.  For a
limit below `2^63` the insert returns `ErrDataTooBig` exactly when the limit is
set and the value is longer; for a limit from `2^63` on it returns
`ErrDataTooBig` for every value, those within the limit included. -/
theorem C4_size_check (enc : Bytes → Bytes) (config : Config) (identifier key value : Bytes)
    (db : DB) (h64 : config.StorageOptions.MaxValueSizeBytes < 2 ^ 64) :
    (config.StorageOptions.MaxValueSizeBytes < 2 ^ 63 →
      ((InsertKeyValueForIdentifier enc config identifier key value db).1 =
          Ret.ret [] (some Err.ErrDataTooBig) ↔
        config.StorageOptions.MaxValueSizeBytes > 0 ∧
          value.length > config.StorageOptions.MaxValueSizeBytes)) ∧
    (2 ^ 63 ≤ config.StorageOptions.MaxValueSizeBytes →
      (InsertKeyValueForIdentifier enc config identifier key value db).1 =
        Ret.ret [] (some Err.ErrDataTooBig)) := by
  constructor
  · intro h63
    have hiff : (config.StorageOptions.MaxValueSizeBytes > 0 ∧
        (value.length : Int) > toInt config.StorageOptions.MaxValueSizeBytes) ↔
        (config.StorageOptions.MaxValueSizeBytes > 0 ∧
          value.length > config.StorageOptions.MaxValueSizeBytes) := by
      rw [toInt_of_lt h63]
      omega
    constructor
    · intro h
      by_contra hn
      rw [← hiff] at hn
      rcases hk : keysForIdentifier enc identifier db with _ | keys
      · rw [Insert_of_panic enc identifier key hn hk] at h
        simp at h
      · rw [Insert_of_keys enc identifier key hn hk] at h
        split_ifs at h <;> simp at h
    · intro h
      rw [Insert_of_tooBig enc identifier key db (hiff.2 h)]
  · intro h63
    have hmod : config.StorageOptions.MaxValueSizeBytes % 2 ^ 64 =
        config.StorageOptions.MaxValueSizeBytes := Nat.mod_eq_of_lt h64
    have hneg : toInt config.StorageOptions.MaxValueSizeBytes < 0 := by
      unfold toInt
      rw [hmod, if_neg (by omega)]
      omega
    rw [Insert_of_tooBig enc identifier key db ⟨by omega, by omega⟩]

/-- C4 at `MaxValueSizeBytes = 2^63` and the empty value. -/
theorem C4_size_check_witness :
    (Config.mk ⟨0, 2 ^ 63⟩).StorageOptions.MaxValueSizeBytes < 2 ^ 64 ∧
    ((Config.mk ⟨0, 2 ^ 63⟩).StorageOptions.MaxValueSizeBytes < 2 ^ 63 →
      ((InsertKeyValueForIdentifier EncodeToString ⟨⟨0, 2 ^ 63⟩⟩ alice foo [] []).1 =
          Ret.ret [] (some Err.ErrDataTooBig) ↔
        (Config.mk ⟨0, 2 ^ 63⟩).StorageOptions.MaxValueSizeBytes > 0 ∧
          ([] : Bytes).length > (Config.mk ⟨0, 2 ^ 63⟩).StorageOptions.MaxValueSizeBytes)) ∧
    (2 ^ 63 ≤ (Config.mk ⟨0, 2 ^ 63⟩).StorageOptions.MaxValueSizeBytes →
      (InsertKeyValueForIdentifier EncodeToString ⟨⟨0, 2 ^ 63⟩⟩ alice foo [] []).1 =
        Ret.ret [] (some Err.ErrDataTooBig)) :=
  ⟨by decide, C4_size_check EncodeToString ⟨⟨0, 2 ^ 63⟩⟩ alice foo [] [] (by decide)⟩

/-- C5: an insert that returns `ErrDataTooBig` or `ErrKeyLimitReached` leaves the
store as it was, so every `KeysForIdentifier` and every
`RetrieveValueIdentifierAndKey` gives what it gave before. -/
theorem C5_rejected_insert_mutates_nothing (enc : Bytes → Bytes) (config : Config)
    (identifier key value : Bytes) (db : DB) (val : Bytes)
    (h : (InsertKeyValueForIdentifier enc config identifier key value db).1 =
          Ret.ret val (some Err.ErrDataTooBig) ∨
        (InsertKeyValueForIdentifier enc config identifier key value db).1 =
          Ret.ret val (some Err.ErrKeyLimitReached)) :
    (InsertKeyValueForIdentifier enc config identifier key value db).2 = db ∧
    (∀ b, KeysForIdentifier enc b
        (InsertKeyValueForIdentifier enc config identifier key value db).2 =
      KeysForIdentifier enc b db) ∧
    (∀ b k, RetrieveValueIdentifierAndKey enc b k
        (InsertKeyValueForIdentifier enc config identifier key value db).2 =
      RetrieveValueIdentifierAndKey enc b k db) := by
  have hdb : (InsertKeyValueForIdentifier enc config identifier key value db).2 = db := by
    rcases Insert_cases enc config identifier key value db with h' | h' | h' | h'
    · rw [h']
    · rw [h']
    · rw [h']
    · rw [h'] at h
      simp at h
  exact ⟨hdb, fun b => by rw [hdb], fun b k => by rw [hdb]⟩

/-- C5 at the value of `TestInsertionLimits` that is longer than ten bytes. -/
theorem C5_rejected_insert_mutates_nothing_witness :
    ((InsertKeyValueForIdentifier EncodeToString limitsConfig alice [50]
          [1, 2, 3, 4, 5, 6, 7, 8, 9, 10, 11] twoKeys).1 =
        Ret.ret [] (some Err.ErrDataTooBig) ∨
      (InsertKeyValueForIdentifier EncodeToString limitsConfig alice [50]
          [1, 2, 3, 4, 5, 6, 7, 8, 9, 10, 11] twoKeys).1 =
        Ret.ret [] (some Err.ErrKeyLimitReached)) ∧
    ((InsertKeyValueForIdentifier EncodeToString limitsConfig alice [50]
        [1, 2, 3, 4, 5, 6, 7, 8, 9, 10, 11] twoKeys).2 = twoKeys ∧
    (∀ b, KeysForIdentifier EncodeToString b
        (InsertKeyValueForIdentifier EncodeToString limitsConfig alice [50]
          [1, 2, 3, 4, 5, 6, 7, 8, 9, 10, 11] twoKeys).2 =
      KeysForIdentifier EncodeToString b twoKeys) ∧
    (∀ b k, RetrieveValueIdentifierAndKey EncodeToString b k
        (InsertKeyValueForIdentifier EncodeToString limitsConfig alice [50]
          [1, 2, 3, 4, 5, 6, 7, 8, 9, 10, 11] twoKeys).2 =
      RetrieveValueIdentifierAndKey EncodeToString b k twoKeys)) :=
  have h : (InsertKeyValueForIdentifier EncodeToString limitsConfig alice [50]
      [1, 2, 3, 4, 5, 6, 7, 8, 9, 10, 11] twoKeys).1 = Ret.ret [] (some Err.ErrDataTooBig) := by
    rw [Insert_of_tooBig EncodeToString alice [50] twoKeys (by decide)]
  ⟨Or.inl h, C5_rejected_insert_mutates_nothing EncodeToString limitsConfig alice [50]
    [1, 2, 3, 4, 5, 6, 7, 8, 9, 10, 11] twoKeys [] (Or.inl h)⟩

/-- C6, counterexample: the ordered store holds one record, under the physical key
`YWxpY2U=-store-Zm9v-x`.  The insert of `foo` for `alice` succeeds and so does the
delete that follows, yet `KeysForIdentifier` still returns `foo`: the loop reads
it off the third segment of the other record. -/
theorem C6_foreign_record_still_listed :
    Ordered foreignStore ∧
    (InsertKeyValueForIdentifier EncodeToString DefaultConfig alice foo someValue
      foreignStore).1.succeeded = true ∧
    (DeleteKeyValueForIdentifier EncodeToString alice foo
        (InsertKeyValueForIdentifier EncodeToString DefaultConfig alice foo someValue
          foreignStore).2).1 =
      Ret.ret () none ∧
    KeysForIdentifier EncodeToString alice
        (DeleteKeyValueForIdentifier EncodeToString alice foo
          (InsertKeyValueForIdentifier EncodeToString DefaultConfig alice foo someValue
            foreignStore).2).2 =
      Ret.ret [foo] none := by
  refine ⟨List.pairwise_singleton _ _, by decide, by decide, by decide⟩

/-- C6, amended: after an insert that succeeded, on every store and with every
identifier encoding, the delete of the same key succeeds and a retrieve of it then
fails with `ErrKeyNotFound`.  On an ordered store `KeysForIdentifier` then returns
without an error, and the key is in the returned list exactly when the store holds
another record under the account's scan beginning whose third segment decodes to
the key; it is not in the list when every physical key was written by `fullKey`
with an identifier encoding free of `'-'`. -/
theorem C6_insert_delete_retrieve (enc : Bytes → Bytes) (config : Config)
    (identifier key value : Bytes) (db : DB)
    (hins : (InsertKeyValueForIdentifier enc config identifier key value db).1.succeeded = true) :
    (DeleteKeyValueForIdentifier enc identifier key
        (InsertKeyValueForIdentifier enc config identifier key value db).2).1 =
      Ret.ret () none ∧
    RetrieveValueIdentifierAndKey enc identifier key
        (DeleteKeyValueForIdentifier enc identifier key
          (InsertKeyValueForIdentifier enc config identifier key value db).2).2 =
      Ret.ret [] (some Err.ErrKeyNotFound) ∧
    (Ordered db →
      ∃ keys, KeysForIdentifier enc identifier
          (DeleteKeyValueForIdentifier enc identifier key
            (InsertKeyValueForIdentifier enc config identifier key value db).2).2 =
          Ret.ret keys none ∧
        (key ∈ keys ↔
          ∃ e ∈ db, e.1 ≠ fullKey enc identifier key ∧
            (enc identifier ++ storeTag).isPrefixOf e.1 = true ∧ logicalKey e.1 = some key) ∧
        ((∀ a, dash ∉ enc a) → WellFormed enc db → key ∉ keys)) := by
  obtain ⟨keys0, hk0⟩ := keysForIdentifier_isSome_of_succeeded hins
  rw [Insert_of_succeeded hins]
  have hget : txnGet (txnSetEntry (fullKey enc identifier key) value db)
      (fullKey enc identifier key) = some value := by
    rw [txnGet_txnSetEntry]; simp
  rw [Delete_of_some enc identifier key hget]
  rw [txnDelete_txnSetEntry]
  refine ⟨rfl, ?_, ?_⟩
  · rw [Retrieve_eq, txnGet_txnDelete]
    simp
  · intro hord
    rw [keysForIdentifier_eq_filter enc identifier hord] at hk0
    have h3 := three_le_of_keysLoop_eq_some (fun e he => (List.mem_filter.1 he).2) hk0
    have hord2 : Ordered (txnDelete (fullKey enc identifier key) db) := Ordered_txnDelete _ hord
    have hk2 : keysForIdentifier enc identifier (txnDelete (fullKey enc identifier key) db) =
        some (((itSeek (enc identifier ++ storeTag)
          (txnDelete (fullKey enc identifier key) db)).takeWhile
            (fun e => (enc identifier ++ storeTag).isPrefixOf e.1)).filterMap
              (fun e => logicalKey e.1)) :=
      keysForIdentifier_of_three_segments enc identifier
        (fun e he hp => h3 e (List.mem_filter.2 ⟨(mem_txnDelete he).1, hp⟩))
    rw [scan_eq_filter hord2] at hk2
    have hiff : key ∈ ((txnDelete (fullKey enc identifier key) db).filter
          (fun e => (enc identifier ++ storeTag).isPrefixOf e.1)).filterMap
            (fun e => logicalKey e.1) ↔
        ∃ e ∈ db, e.1 ≠ fullKey enc identifier key ∧
          (enc identifier ++ storeTag).isPrefixOf e.1 = true ∧ logicalKey e.1 = some key := by
      rw [List.mem_filterMap]
      constructor
      · rintro ⟨e, he, hl⟩
        obtain ⟨hdel, hp⟩ := List.mem_filter.1 he
        exact ⟨e, (mem_txnDelete hdel).1, (mem_txnDelete hdel).2, hp, hl⟩
      · rintro ⟨e, he, hne, hp, hl⟩
        refine ⟨e, List.mem_filter.2 ⟨?_, hp⟩, hl⟩
        simp only [txnDelete, List.mem_filter]
        exact ⟨he, by simpa using hne⟩
    refine ⟨_, by rw [KeysForIdentifier_eq, hk2], hiff, ?_⟩
    intro hdash hwf hmem
    obtain ⟨e, he, hne, hp, hl⟩ := hiff.1 hmem
    obtain ⟨i, k, hk⟩ := hwf e he
    rw [hk] at hp hl hne
    rw [logicalKey_fullKey hdash] at hl
    have henc := enc_eq_of_isPrefixOf_fullKey hdash hp
    apply hne
    rw [Option.some.inj hl]
    simp only [fullKey, henc]

/-- C6, amended, at the insert of `TestDelete`, into the store of
`TestInsertionLimits`. -/
theorem C6_insert_delete_retrieve_witness :
    (InsertKeyValueForIdentifier EncodeToString DefaultConfig alice foo someValue
      twoKeys).1.succeeded = true ∧
    ((DeleteKeyValueForIdentifier EncodeToString alice foo
        (InsertKeyValueForIdentifier EncodeToString DefaultConfig alice foo someValue
          twoKeys).2).1 =
      Ret.ret () none ∧
    RetrieveValueIdentifierAndKey EncodeToString alice foo
        (DeleteKeyValueForIdentifier EncodeToString alice foo
          (InsertKeyValueForIdentifier EncodeToString DefaultConfig alice foo someValue
            twoKeys).2).2 =
      Ret.ret [] (some Err.ErrKeyNotFound) ∧
    (Ordered twoKeys →
      ∃ keys, KeysForIdentifier EncodeToString alice
          (DeleteKeyValueForIdentifier EncodeToString alice foo
            (InsertKeyValueForIdentifier EncodeToString DefaultConfig alice foo someValue
              twoKeys).2).2 =
          Ret.ret keys none ∧
        (foo ∈ keys ↔
          ∃ e ∈ twoKeys, e.1 ≠ fullKey EncodeToString alice foo ∧
            (EncodeToString alice ++ storeTag).isPrefixOf e.1 = true ∧
            logicalKey e.1 = some foo) ∧
        ((∀ a, dash ∉ EncodeToString a) → WellFormed EncodeToString twoKeys → foo ∉ keys))) :=
  have hins : (InsertKeyValueForIdentifier EncodeToString DefaultConfig alice foo someValue
      twoKeys).1.succeeded = true := by decide
  ⟨hins, C6_insert_delete_retrieve EncodeToString DefaultConfig alice foo someValue twoKeys hins⟩

/-- C7: a delete of a key whose physical key is not in the store fails with
`ErrKeyNotFound` and leaves the store as it was. -/
theorem C7_delete_absent (enc : Bytes → Bytes) (identifier key : Bytes) (db : DB)
    (h : txnGet db (fullKey enc identifier key) = none) :
    DeleteKeyValueForIdentifier enc identifier key db =
      (Ret.ret () (some Err.ErrKeyNotFound), db) :=
  Delete_of_none enc identifier key h

/-- C7 at the first call of `TestDelete`, and at a store that holds other keys. -/
theorem C7_delete_absent_witness :
    txnGet twoKeys (fullKey EncodeToString alice foo) = none ∧
    DeleteKeyValueForIdentifier EncodeToString alice foo twoKeys =
      (Ret.ret () (some Err.ErrKeyNotFound), twoKeys) :=
  ⟨by decide, C7_delete_absent EncodeToString alice foo twoKeys (by decide)⟩

/-- C8: with an injective identifier encoding free of `'-'`, after any sequence of
calls on the empty store `KeysForIdentifier` returns, without an error, the
logical keys of the account that are present (an insert of the key succeeded and
no delete of it succeeded since), each once; it returns the empty list when no
insert was called for the account, and exactly `[key]` after a single successful
insert of `key`. -/
theorem C8_listed_keys_are_present_keys (enc : Bytes → Bytes) (hinj : Function.Injective enc)
    (hdash : ∀ x, dash ∉ enc x) (identifier : Bytes) (calls : List Call) :
    (∃ keys, KeysForIdentifier enc identifier (run enc [] calls) = Ret.ret keys none ∧
      keys.Nodup ∧
      ∀ key, key ∈ keys ↔ presentAfter enc identifier key [] calls false = true) ∧
    ((∀ c ∈ calls, ∀ config k v, c ≠ Call.Insert config identifier k v) →
      KeysForIdentifier enc identifier (run enc [] calls) = Ret.ret [] none) ∧
    (∀ config key value,
      (InsertKeyValueForIdentifier enc config identifier key value []).1.succeeded = true →
      KeysForIdentifier enc identifier (run enc [] [Call.Insert config identifier key value]) =
        Ret.ret [key] none) := by
  have hmain : ∀ cs : List Call,
      KeysForIdentifier enc identifier (run enc [] cs) =
        Ret.ret (((run enc [] cs).filter
          (fun e => (enc identifier ++ storeTag).isPrefixOf e.1)).filterMap
          (fun e => logicalKey e.1)) none ∧
      (∀ key, key ∈ ((run enc [] cs).filter
          (fun e => (enc identifier ++ storeTag).isPrefixOf e.1)).filterMap
          (fun e => logicalKey e.1) ↔ presentAfter enc identifier key [] cs false = true) := by
    intro cs
    have hwf : WellFormed enc (run enc [] cs) := run_WellFormed cs (WellFormed_nil enc)
    have hord : Ordered (run enc [] cs) := run_Ordered cs List.Pairwise.nil
    refine ⟨?_, fun key => ?_⟩
    · rw [KeysForIdentifier_eq, keysForIdentifier_eq_filterMap enc identifier hwf hord]
    · rw [mem_keys_iff hdash identifier key hwf hord,
        ← presentAfter_eq hinj identifier key cs []]
      rfl
  refine ⟨⟨_, (hmain calls).1, ?_, (hmain calls).2⟩, ?_, ?_⟩
  · exact keys_nodup hdash identifier (run_WellFormed calls (WellFormed_nil enc))
      (run_Ordered calls List.Pairwise.nil)
  · intro hno
    rw [(hmain calls).1]
    congr 1
    rw [List.eq_nil_iff_forall_not_mem]
    intro key hkey
    rw [(hmain calls).2 key, presentAfter_of_no_insert enc identifier key calls [] hno] at hkey
    exact Bool.false_ne_true hkey
  · intro config key value hins
    rw [(hmain _).1]
    have hrun : run enc [] [Call.Insert config identifier key value] =
        [(fullKey enc identifier key, value)] := by
      simp only [run, List.foldl, step]
      rw [Insert_of_succeeded hins]
      rfl
    rw [hrun]
    simp [List.filter_cons, isPrefixOf_fullKey, logicalKey_fullKey hdash]

/-- C8 for base64 as the identifier encoding, at the calls of
`TestInsertionLimits` followed by a delete. -/
theorem C8_listed_keys_are_present_keys_witness :
    (Function.Injective EncodeToString ∧ ∀ x, dash ∉ EncodeToString x) ∧
    ((∃ keys, KeysForIdentifier EncodeToString alice
        (run EncodeToString []
          [Call.Insert limitsConfig alice [49] someValue,
           Call.Insert limitsConfig alice [50] someValue,
           Call.Delete alice [49]]) = Ret.ret keys none ∧
      keys.Nodup ∧
      ∀ key, key ∈ keys ↔ presentAfter EncodeToString alice key []
          [Call.Insert limitsConfig alice [49] someValue,
           Call.Insert limitsConfig alice [50] someValue,
           Call.Delete alice [49]] false = true) ∧
    ((∀ c ∈ [Call.Insert limitsConfig alice [49] someValue,
           Call.Insert limitsConfig alice [50] someValue,
           Call.Delete alice [49]],
        ∀ config k v, c ≠ Call.Insert config alice k v) →
      KeysForIdentifier EncodeToString alice
        (run EncodeToString []
          [Call.Insert limitsConfig alice [49] someValue,
           Call.Insert limitsConfig alice [50] someValue,
           Call.Delete alice [49]]) = Ret.ret [] none) ∧
    (∀ config key value,
      (InsertKeyValueForIdentifier EncodeToString config alice key value []).1.succeeded = true →
      KeysForIdentifier EncodeToString alice
          (run EncodeToString [] [Call.Insert config alice key value]) =
        Ret.ret [key] none)) :=
  ⟨⟨EncodeToString_injective, dash_not_mem_EncodeToString⟩,
    C8_listed_keys_are_present_keys EncodeToString EncodeToString_injective
      dash_not_mem_EncodeToString alice
      [Call.Insert limitsConfig alice [49] someValue,
       Call.Insert limitsConfig alice [50] someValue,
       Call.Delete alice [49]]⟩

/-- C9: with an injective identifier encoding free of `'-'`, on an ordered store,
an insert or a delete for account `a` changes neither what `KeysForIdentifier`
returns for another account `b` nor what `RetrieveValueIdentifierAndKey` returns for
any key of `b`; after an insert of `foo` for `a` into the empty store, `b` lists
no key and its retrieve of `foo` fails with `ErrKeyNotFound`. -/
theorem C9_cross_account_isolation (enc : Bytes → Bytes) (hinj : Function.Injective enc)
    (hdash : ∀ x, dash ∉ enc x) (a b : Bytes) (hab : a ≠ b) (config : Config)
    (key value : Bytes) (db : DB) (hord : Ordered db) :
    (KeysForIdentifier enc b (InsertKeyValueForIdentifier enc config a key value db).2 =
        KeysForIdentifier enc b db ∧
      ∀ k, RetrieveValueIdentifierAndKey enc b k
          (InsertKeyValueForIdentifier enc config a key value db).2 =
        RetrieveValueIdentifierAndKey enc b k db) ∧
    (KeysForIdentifier enc b (DeleteKeyValueForIdentifier enc a key db).2 =
        KeysForIdentifier enc b db ∧
      ∀ k, RetrieveValueIdentifierAndKey enc b k (DeleteKeyValueForIdentifier enc a key db).2 =
        RetrieveValueIdentifierAndKey enc b k db) ∧
    (KeysForIdentifier enc b (InsertKeyValueForIdentifier enc config a foo value []).2 =
        Ret.ret [] none ∧
      RetrieveValueIdentifierAndKey enc b foo
          (InsertKeyValueForIdentifier enc config a foo value []).2 =
        Ret.ret [] (some Err.ErrKeyNotFound)) := by
  have hne : ∀ k k', fullKey enc b k ≠ fullKey enc a k' :=
    fun k k' h => hab (fullKey_inj hinj h).1.symm
  have hset : ∀ (k' v : Bytes) (d : DB), Ordered d →
      KeysForIdentifier enc b (txnSetEntry (fullKey enc a k') v d) = KeysForIdentifier enc b d ∧
      ∀ k, RetrieveValueIdentifierAndKey enc b k (txnSetEntry (fullKey enc a k') v d) =
        RetrieveValueIdentifierAndKey enc b k d := by
    intro k' v d hd
    refine ⟨?_, fun k => ?_⟩
    · rw [KeysForIdentifier_eq, KeysForIdentifier_eq,
        keysForIdentifier_txnSetEntry_of_ne hinj hdash hab k' v hd]
    · rw [Retrieve_eq, Retrieve_eq, txnGet_txnSetEntry, if_neg (hne k k')]
  have hins : ∀ (k' v : Bytes) (d : DB), Ordered d →
      KeysForIdentifier enc b (InsertKeyValueForIdentifier enc config a k' v d).2 =
        KeysForIdentifier enc b d ∧
      ∀ k, RetrieveValueIdentifierAndKey enc b k
          (InsertKeyValueForIdentifier enc config a k' v d).2 =
        RetrieveValueIdentifierAndKey enc b k d := by
    intro k' v d hd
    rcases Insert_snd enc config a k' v d with h | ⟨_, h⟩
    · rw [h]; exact ⟨rfl, fun _ => rfl⟩
    · rw [h]; exact hset k' v d hd
  refine ⟨hins key value db hord, ?_, ?_⟩
  · rcases Delete_snd enc a key db with h | h
    · rw [h]; exact ⟨rfl, fun _ => rfl⟩
    · rw [h]
      refine ⟨?_, fun k => ?_⟩
      · rw [KeysForIdentifier_eq, KeysForIdentifier_eq,
          keysForIdentifier_txnDelete_of_ne hinj hdash hab key hord]
      · rw [Retrieve_eq, Retrieve_eq, txnGet_txnDelete, if_neg (hne k key)]
  · obtain ⟨h1, h2⟩ := hins foo value [] List.Pairwise.nil
    rw [h1, h2 foo]
    exact ⟨rfl, rfl⟩

/-- C9 for `alice` and `bob` at the store of `TestInsertionLimits`. -/
theorem C9_cross_account_isolation_witness :
    (Function.Injective EncodeToString ∧ (∀ x, dash ∉ EncodeToString x) ∧ alice ≠ bob ∧
      Ordered twoKeys) ∧
    ((KeysForIdentifier EncodeToString bob
          (InsertKeyValueForIdentifier EncodeToString DefaultConfig alice foo someValue
            twoKeys).2 =
        KeysForIdentifier EncodeToString bob twoKeys ∧
      ∀ k, RetrieveValueIdentifierAndKey EncodeToString bob k
          (InsertKeyValueForIdentifier EncodeToString DefaultConfig alice foo someValue
            twoKeys).2 =
        RetrieveValueIdentifierAndKey EncodeToString bob k twoKeys) ∧
    (KeysForIdentifier EncodeToString bob
          (DeleteKeyValueForIdentifier EncodeToString alice foo twoKeys).2 =
        KeysForIdentifier EncodeToString bob twoKeys ∧
      ∀ k, RetrieveValueIdentifierAndKey EncodeToString bob k
          (DeleteKeyValueForIdentifier EncodeToString alice foo twoKeys).2 =
        RetrieveValueIdentifierAndKey EncodeToString bob k twoKeys) ∧
    (KeysForIdentifier EncodeToString bob
          (InsertKeyValueForIdentifier EncodeToString DefaultConfig alice foo someValue []).2 =
        Ret.ret [] none ∧
      RetrieveValueIdentifierAndKey EncodeToString bob foo
          (InsertKeyValueForIdentifier EncodeToString DefaultConfig alice foo someValue []).2 =
        Ret.ret [] (some Err.ErrKeyNotFound))) :=
  ⟨⟨EncodeToString_injective, dash_not_mem_EncodeToString, by decide, Ordered_twoKeys⟩,
    C9_cross_account_isolation EncodeToString EncodeToString_injective
      dash_not_mem_EncodeToString alice bob (by decide) DefaultConfig foo someValue twoKeys
      Ordered_twoKeys⟩

/-- C10: with an injective identifier encoding, `fullKey` is injective on pairs of
account identifier and logical key, and every `fullKey` begins with the encoded
identifier followed by `-store-`. -/
theorem C10_fullKey_injective (enc : Bytes → Bytes) (hinj : Function.Injective enc)
    (a a' k k' : Bytes) :
    (fullKey enc a k = fullKey enc a' k' → a = a' ∧ k = k') ∧
    (enc a ++ [45, 115, 116, 111, 114, 101, 45]) <+: fullKey enc a k := by
  refine ⟨fun h => fullKey_inj hinj h, EncodeToString k, ?_⟩
  simp [fullKey, storeTag, dash]

/-- C10 for base64 as the identifier encoding, at `alice` and `bob`. -/
theorem C10_fullKey_injective_witness :
    Function.Injective EncodeToString ∧
    ((fullKey EncodeToString alice foo = fullKey EncodeToString bob foo →
        alice = bob ∧ foo = foo) ∧
      (EncodeToString alice ++ [45, 115, 116, 111, 114, 101, 45]) <+:
        fullKey EncodeToString alice foo) :=
  ⟨EncodeToString_injective,
    C10_fullKey_injective EncodeToString EncodeToString_injective alice bob foo foo⟩

/-- C11, at the failing input: next to the two well-formed records of `alice` the
store holds a record whose physical key `YWxpY2U=-store` lies under her scan
beginning and has two segments; `KeysForIdentifier` panics, and so does an insert
for `alice`.  A record whose third segment is not base64 is skipped: with
`YWxpY2U=-store-!` in the store `KeysForIdentifier` returns the keys `1` and `2`. -/
theorem C11_two_segment_key_panics :
    (EncodeToString alice ++ storeTag).isPrefixOf (EncodeToString alice ++ storeTag) = true ∧
    (split dash (EncodeToString alice ++ storeTag)).length = 2 ∧
    twoSegmentStore =
      [(EncodeToString alice ++ storeTag, someValue),
       (fullKey EncodeToString alice [49], someValue),
       (fullKey EncodeToString alice [50], someValue)] ∧
    KeysForIdentifier EncodeToString alice twoSegmentStore = Ret.panic ∧
    (InsertKeyValueForIdentifier EncodeToString DefaultConfig alice foo someValue
      twoSegmentStore).1 = Ret.panic ∧
    KeysForIdentifier EncodeToString alice undecodableStore = Ret.ret [[49], [50]] none := by
  refine ⟨by decide, by decide, by decide, by decide, ?_, by decide⟩
  rw [Insert_of_panic EncodeToString alice foo (by decide) (by decide)]

/-- C12, at the failing input: on a closed engine `db.View` returns the engine's
error without running the callback, the pointer `keys` is still nil, and
`KeysForIdentifier` panics on `*keys`; on no engine does it return an error
value. -/
theorem C12_closed_engine_panics (enc : Bytes → Bytes) (identifier : Bytes) (db : DB) :
    (∀ fn : DB → Option (List Bytes) → Option (Option Failure × Option (List Bytes)),
      dbViewOn true db none fn = some (some Failure.engine, none)) ∧
    KeysForIdentifierOn true enc identifier db = Outcome.panic ∧
    (∀ closed keys err,
      KeysForIdentifierOn closed enc identifier db = Outcome.ret keys err → err = none) := by
  refine ⟨fun fn => rfl, rfl, ?_⟩
  intro closed keys err h
  cases closed with
  | true => exact absurd h (by simp [KeysForIdentifierOn, dbViewOn])
  | false =>
    simp only [KeysForIdentifierOn, dbViewOn] at h
    rcases hk : keysForIdentifier enc identifier db with _ | result
    · rw [hk] at h; simp at h
    · rw [hk] at h
      simp only [Bool.false_eq_true, if_false, Outcome.ret.injEq] at h
      exact h.2.symm

/-- C14: with an injective identifier encoding free of `'-'` and a key-count limit
`M > 0` used by every insert, after any sequence of `Insert`, `Delete`, `Retrieve`
and `List` calls on the empty store `KeysForIdentifier` returns, for every
account, at most `M` keys. -/
theorem C14_key_count_invariant (enc : Bytes → Bytes) (hinj : Function.Injective enc)
    (hdash : ∀ x, dash ∉ enc x) (M : Nat) (hM : 0 < M) (calls : List Call)
    (hcalls : insertsUseLimit M calls) (identifier : Bytes) :
    ∃ keys, KeysForIdentifier enc identifier (run enc [] calls) = Ret.ret keys none ∧
      keys.length ≤ M := by
  have hwf : WellFormed enc (run enc [] calls) := run_WellFormed calls (WellFormed_nil enc)
  have hord : Ordered (run enc [] calls) := run_Ordered calls List.Pairwise.nil
  refine ⟨_, ?_, run_count_le hinj hdash hM calls hcalls List.Pairwise.nil (WellFormed_nil enc)
    (fun a => Nat.zero_le M) identifier⟩
  rw [KeysForIdentifier_eq, keysForIdentifier_eq_filterMap enc identifier hwf hord]

/-- C14 for base64 as the identifier encoding, at the four inserts of
`TestInsertionLimits` followed by a delete and one more insert. -/
theorem C14_key_count_invariant_witness :
    (Function.Injective EncodeToString ∧ (∀ x, dash ∉ EncodeToString x) ∧ 0 < 2 ∧
      insertsUseLimit 2
        [Call.Insert limitsConfig alice [49] someValue,
         Call.Insert limitsConfig alice [50] [1, 2, 3, 4, 5, 6, 7, 8, 9, 10, 11],
         Call.Insert limitsConfig alice [50] someValue,
         Call.Insert limitsConfig alice [51] someValue,
         Call.Delete alice [49],
         Call.Insert limitsConfig alice [51] someValue]) ∧
    ∃ keys, KeysForIdentifier EncodeToString alice
        (run EncodeToString []
          [Call.Insert limitsConfig alice [49] someValue,
           Call.Insert limitsConfig alice [50] [1, 2, 3, 4, 5, 6, 7, 8, 9, 10, 11],
           Call.Insert limitsConfig alice [50] someValue,
           Call.Insert limitsConfig alice [51] someValue,
           Call.Delete alice [49],
           Call.Insert limitsConfig alice [51] someValue]) = Ret.ret keys none ∧
      keys.length ≤ 2 :=
  have hcalls : insertsUseLimit 2
      [Call.Insert limitsConfig alice [49] someValue,
       Call.Insert limitsConfig alice [50] [1, 2, 3, 4, 5, 6, 7, 8, 9, 10, 11],
       Call.Insert limitsConfig alice [50] someValue,
       Call.Insert limitsConfig alice [51] someValue,
       Call.Delete alice [49],
       Call.Insert limitsConfig alice [51] someValue] := by
    intro c hc config i k v hcv
    subst hcv
    simp only [List.mem_cons, Call.Insert.injEq, List.mem_nil_iff, or_false] at hc
    have hconfig : config = limitsConfig := by
      rcases hc with h | h | h | h | h | h <;> first | exact h.1 | cases h
    rw [hconfig]
    rfl
  ⟨⟨EncodeToString_injective, dash_not_mem_EncodeToString, by decide, hcalls⟩,
    C14_key_count_invariant EncodeToString EncodeToString_injective
      dash_not_mem_EncodeToString 2 (by decide) _ hcalls alice⟩

end Safestore
